import Mathlib

/-!
HackRF sink: buffer pool, sample converter, production step, transfer callback.

A shallow embedding of `lib/hackrf/hackrf_sink_c.cc`.

Memory is modelled as lists of bytes (`Nat`, one entry per `unsigned char`).
A pointer into a block is the byte offset from the start of the block, so
`cb->head`, `cb->tail` and `cb->buffer_end` are offsets relative to
`cb->buffer`.  The mutex / condition variable are not modelled: every function
below is one critical section or one sequential stretch of the source.
-/

namespace HackRF

/-! ## Memory primitives -/

/-- The call `memcpy(dst + off, src, n)`: the block `dst` with the `n` bytes
starting at `off` replaced by the first `n` bytes of `src`.  Meaningful when
`off + n ≤ dst.length` and `n ≤ src.length` (anything else is out of bounds
in C). -/
def memcpy (dst : List Nat) (off : Nat) (src : List Nat) (n : Nat) : List Nat :=
  dst.take off ++ src.take n ++ dst.drop (off + n)

/-- The call `memset(dst, c, n)`: the first `n` bytes of `dst` set to `c`. -/
def memset (dst : List Nat) (c : Nat) (n : Nat) : List Nat :=
  List.replicate n c ++ dst.drop n

/-! ## The circular buffer of transfer buffers -/

/-- The `circular_buffer_t` record (declared in `hackrf_sink_c.h`).
`buffer` is the malloc'ed block (`none` is `NULL`); `buffer_end`, `head` and
`tail` are byte offsets from the start of that block. -/
structure circular_buffer_t where
  buffer : Option (List Nat)
  buffer_end : Nat
  capacity : Nat
  count : Nat
  sz : Nat
  head : Nat
  tail : Nat
deriving DecidableEq

/-- The value of `SIZE_MAX + 1` for a 64-bit `size_t`. -/
def SIZE_MOD : Nat := 2 ^ 64

/-- Source function `cb_init`.  `malloc` is the allocator: asked for `n` bytes
it answers `none` (`NULL`) or a block of uninitialised bytes.  The request
`capacity * sz` is a `size_t` product. -/
def cb_init (cb : circular_buffer_t) (capacity sz : Nat)
    (malloc : Nat → Option (List Nat)) : Bool × circular_buffer_t :=
  match malloc (capacity * sz % SIZE_MOD) with
  | none => (false, { cb with buffer := none })
  | some block =>
    (true,
      { buffer := some block
        buffer_end := capacity * sz % SIZE_MOD
        capacity := capacity
        count := 0
        sz := sz
        head := 0
        tail := 0 })

/-- Source function `cb_has_room`. -/
def cb_has_room (cb : circular_buffer_t) : Bool :=
  if cb.count = cb.capacity then false else true

/-- Source function `cb_push_back`: the returned flag and the pool afterwards.
`count++` is guarded by `count != capacity`; it cannot wrap for a pool whose
`count` is at most its `capacity`. -/
def cb_push_back (cb : circular_buffer_t) (item : List Nat) : Bool × circular_buffer_t :=
  if cb.count = cb.capacity then (false, cb)
  else
    let buffer := cb.buffer.map (fun b => memcpy b cb.head item cb.sz)
    let head := cb.head + cb.sz
    let head := if head = cb.buffer_end then 0 else head
    (true, { cb with buffer := buffer, head := head, count := cb.count + 1 })

/-- Source function `cb_pop_front`: the returned flag, the pool afterwards and
the destination `item` afterwards.  `count--` is guarded by `count != 0`. -/
def cb_pop_front (cb : circular_buffer_t) (item : List Nat) :
    Bool × circular_buffer_t × List Nat :=
  if cb.count = 0 then (false, cb, item)
  else
    let item := memcpy item 0 ((cb.buffer.getD []).drop cb.tail) cb.sz
    let tail := cb.tail + cb.sz
    let tail := if tail = cb.buffer_end then 0 else tail
    (true, { cb with tail := tail, count := cb.count - 1 }, item)

/-- The pool read as a queue: the `n` slots of `sz` bytes found by starting at
offset `off` and advancing the way `cb_pop_front` advances `tail`. -/
def cb_slots (buffer : List Nat) (buffer_end sz : Nat) : Nat → Nat → List (List Nat)
  | 0, _ => []
  | n + 1, off =>
    (buffer.drop off).take sz ::
      cb_slots buffer buffer_end sz n (if off + sz = buffer_end then 0 else off + sz)

/-- The buffers currently queued in the pool, oldest first: the `count` slots
starting at `tail`. -/
def cb_contents (cb : circular_buffer_t) : List (List Nat) :=
  cb_slots (cb.buffer.getD []) cb.buffer_end cb.sz cb.count cb.tail

/-- One call on the pool: a push of `item`, or a pop into the destination
`item`. -/
inductive cb_op where
  | push_back (item : List Nat)
  | pop_front (item : List Nat)
deriving DecidableEq

/-- What a run of calls has done so far: the pool, the buffers accepted by
successful pushes and the buffers delivered by successful pops (the first `sz`
bytes of each destination), both in call order. -/
structure cb_trace where
  cb : circular_buffer_t
  pushed : List (List Nat)
  popped : List (List Nat)
deriving DecidableEq

/-- Apply one call and record its effect. -/
def cb_step (t : cb_trace) : cb_op → cb_trace
  | .push_back item =>
    match cb_push_back t.cb item with
    | (true, cb) => { t with cb := cb, pushed := t.pushed ++ [item] }
    | (false, cb) => { t with cb := cb }
  | .pop_front item =>
    match cb_pop_front t.cb item with
    | (true, cb, out) => { t with cb := cb, popped := t.popped ++ [out.take t.cb.sz] }
    | (false, cb, _) => { t with cb := cb }

/-- Apply a sequence of calls, left to right. -/
def cb_run (t : cb_trace) (ops : List cb_op) : cb_trace :=
  ops.foldl cb_step t

/-- The `item` argument of a push points to one buffer of `sz` bytes. -/
def cb_op.fits (sz : Nat) : cb_op → Prop
  | .push_back item => item.length = sz
  | .pop_front _ => True

/-! ## Single-precision floats -/

/-- A `float`: a finite value `m * 2^e`, or a non-finite one (an infinity or a
NaN; the conversions below treat all of these alike). -/
inductive float32 where
  | fin (m : Int) (e : Int)
  | nonfin
deriving DecidableEq

/-- Number of binary digits of `n`, by halving (`fuel` bounds the steps). -/
def bit_length_aux : Nat → Nat → Nat
  | 0, _ => 0
  | fuel + 1, n => if n = 0 then 0 else bit_length_aux fuel (n / 2) + 1

/-- Number of binary digits of `n`. -/
def bit_length (n : Nat) : Nat := bit_length_aux n n

/-- The quotient `n / 2^k` rounded to the nearest integer, ties to the even one. -/
def round_half_even (n k : Nat) : Nat :=
  let q := n / 2 ^ k
  let r := n % 2 ^ k
  if 2 * r > 2 ^ k ∨ (2 * r = 2 ^ k ∧ q % 2 = 1) then q + 1 else q

/-- The binary32 value nearest to `m * 2^e` (round to nearest, ties to even;
24 significant bits, least exponent -149, overflow to a non-finite value). -/
def float32.round (m e : Int) : float32 :=
  let n := m.natAbs
  let k := (max ((bit_length n : Int) - 24) (-149 - e)).toNat
  let q := round_half_even n k
  if (bit_length q : Int) + (e + k) > 128 then .nonfin
  else .fin (m.sign * q) (e + k)

/-- Single-precision product. -/
def float32.mul : float32 → float32 → float32
  | .fin m1 e1, .fin m2 e2 => float32.round (m1 * m2) (e1 + e2)
  | _, _ => .nonfin

/-- Single-precision sum. -/
def float32.add : float32 → float32 → float32
  | .fin m1 e1, .fin m2 e2 =>
    let e := min e1 e2
    float32.round (m1 * 2 ^ (e1 - e).toNat + m2 * 2 ^ (e2 - e).toNat) e
  | _, _ => .nonfin

/-- Conversion of an `int` constant to `float`. -/
def float32.of_int (n : Int) : float32 := float32.round n 0

/-- Truncating conversion to a 32-bit integer (`cvttss2si`): the value with its
fraction dropped, or `-2^31` when that does not fit or the value is non-finite. -/
def cvttss2si : float32 → Int
  | .fin m e =>
    let t := if 0 ≤ e then m * 2 ^ e.toNat else Int.tdiv m (2 ^ (-e).toNat)
    if -2 ^ 31 ≤ t ∧ t < 2 ^ 31 then t else -2 ^ 31
  | .nonfin => -2 ^ 31

/-- The conversion `float -> unsigned char` of an assignment: the fraction is
dropped.  For a value whose integer part is outside `[0, 255]` C leaves the
result undefined; the model keeps the low byte of the `cvttss2si` result, as
x86 compilers do. -/
def float_to_uchar (x : float32) : Nat := (cvttss2si x % 256).toNat

/-- One lane of `cvtps2dq` under the default rounding mode: round to nearest,
ties to even; `-2^31` when out of range or non-finite. -/
def cvtps2dq : float32 → Int
  | .fin m e =>
    let r := if 0 ≤ e then m * 2 ^ e.toNat else m.sign * round_half_even m.natAbs (-e).toNat
    if -2 ^ 31 ≤ r ∧ r < 2 ^ 31 then r else -2 ^ 31
  | .nonfin => -2 ^ 31

/-- Signed saturation of a 32-bit lane to 16 bits. -/
def sat_i16 (x : Int) : Int := max (-32768) (min 32767 x)

/-- Wrapping 16-bit signed addition. -/
def add_i16 (x y : Int) : Int := (x + y + 32768) % 65536 - 32768

/-- Unsigned saturation of a signed 16-bit lane to 8 bits. -/
def sat_u8 (x : Int) : Nat := (max 0 (min 255 x)).toNat

/-! ### The vector intrinsics, lane 0 first (memory order) -/

/-- Intrinsic `_mm_set_ps(x, x, x, x)`. -/
def _mm_set_ps (x : float32) : List float32 := List.replicate 4 x
/-- Intrinsic `_mm256_set_ps` with eight equal arguments. -/
def _mm256_set_ps (x : float32) : List float32 := List.replicate 8 x
/-- Intrinsic `_mm_set_epi16` with eight equal arguments. -/
def _mm_set_epi16 (x : Int) : List Int := List.replicate 8 x
/-- Intrinsic `_mm_loadu_ps(&p[off])`. -/
def _mm_loadu_ps (p : List float32) (off : Nat) : List float32 := (p.drop off).take 4
/-- Intrinsic `_mm256_loadu_ps(&p[off])`. -/
def _mm256_loadu_ps (p : List float32) (off : Nat) : List float32 := (p.drop off).take 8
/-- Intrinsic `_mm_mul_ps`. -/
def _mm_mul_ps (a b : List float32) : List float32 := List.zipWith float32.mul a b
/-- Intrinsic `_mm256_mul_ps`. -/
def _mm256_mul_ps (a b : List float32) : List float32 := List.zipWith float32.mul a b
/-- Intrinsic `_mm_cvtps_epi32`. -/
def _mm_cvtps_epi32 (a : List float32) : List Int := a.map cvtps2dq
/-- Intrinsic `_mm256_cvtps_epi32`. -/
def _mm256_cvtps_epi32 (a : List float32) : List Int := a.map cvtps2dq
/-- Intrinsic `_mm256_extractf128_si256(v, 1)`: the upper four lanes. -/
def _mm256_extractf128_si256_1 (v : List Int) : List Int := v.drop 4
/-- Intrinsic `_mm256_castsi256_si128`: the lower four lanes. -/
def _mm256_castsi256_si128 (v : List Int) : List Int := v.take 4
/-- Intrinsic `_mm_packs_epi32`. -/
def _mm_packs_epi32 (a b : List Int) : List Int := (a ++ b).map sat_i16
/-- Intrinsic `_mm_add_epi16`. -/
def _mm_add_epi16 (a b : List Int) : List Int := List.zipWith add_i16 a b
/-- Intrinsic `_mm_packus_epi16`. -/
def _mm_packus_epi16 (a b : List Int) : List Nat := (a ++ b).map sat_u8

/-! ## The sample converters

A buffer argument is a block together with the offset the pointer has into
it; each converter returns the output block afterwards. -/

/-- Source function `convert_avx(inbuf + in_off, outbuf + out_off, count)`. -/
def convert_avx (inbuf : List float32) (in_off : Nat) (outbuf : List Nat) (out_off : Nat)
    (count : Nat) : List Nat :=
  let mulme := _mm256_set_ps (.fin 127 0)
  let addme := _mm_set_epi16 127
  (List.range count).foldl (fun outbuf i =>
    let itmp3 := _mm256_cvtps_epi32 (_mm256_mul_ps (_mm256_loadu_ps inbuf (in_off + (i * 16 + 0))) mulme)
    let itmp4 := _mm256_cvtps_epi32 (_mm256_mul_ps (_mm256_loadu_ps inbuf (in_off + (i * 16 + 8))) mulme)
    let a1 := _mm256_extractf128_si256_1 itmp3
    let a0 := _mm256_castsi256_si128 itmp3
    let a3 := _mm256_extractf128_si256_1 itmp4
    let a2 := _mm256_castsi256_si128 itmp4
    let outshorts1 := _mm_add_epi16 (_mm_packs_epi32 a0 a1) addme
    let outshorts2 := _mm_add_epi16 (_mm_packs_epi32 a2 a3) addme
    let outbytes := _mm_packus_epi16 outshorts1 outshorts2
    memcpy outbuf (out_off + i * 16) outbytes 16) outbuf

/-- Source function `convert_sse2(inbuf + in_off, outbuf + out_off, count)`. -/
def convert_sse2 (inbuf : List float32) (in_off : Nat) (outbuf : List Nat) (out_off : Nat)
    (count : Nat) : List Nat :=
  let mulme := _mm_set_ps (.fin 127 0)
  let addme := _mm_set_epi16 127
  (List.range count).foldl (fun outbuf i =>
    let itmp1 := _mm_mul_ps (_mm_loadu_ps inbuf (in_off + (i * 16 + 0))) mulme
    let itmp2 := _mm_mul_ps (_mm_loadu_ps inbuf (in_off + (i * 16 + 4))) mulme
    let itmp3 := _mm_mul_ps (_mm_loadu_ps inbuf (in_off + (i * 16 + 8))) mulme
    let itmp4 := _mm_mul_ps (_mm_loadu_ps inbuf (in_off + (i * 16 + 12))) mulme
    let otmp1 := _mm_cvtps_epi32 itmp1
    let otmp2 := _mm_cvtps_epi32 itmp2
    let otmp3 := _mm_cvtps_epi32 itmp3
    let otmp4 := _mm_cvtps_epi32 itmp4
    let outshorts1 := _mm_add_epi16 (_mm_packs_epi32 otmp1 otmp2) addme
    let outshorts2 := _mm_add_epi16 (_mm_packs_epi32 otmp3 otmp4) addme
    let outbytes := _mm_packus_epi16 outshorts1 outshorts2
    memcpy outbuf (out_off + i * 16) outbytes 16) outbuf

/-- The right-hand side `x*127+127` of `convert_default`, narrowed to
`unsigned char`. -/
def convert_default_elem (x : float32) : Nat :=
  float_to_uchar (float32.add (float32.mul x (float32.of_int 127)) (float32.of_int 127))

/-- Source function `convert_default(inbuf + in_off, outbuf + out_off, count)`.
A read past the end of `inbuf` (out of bounds in C) yields a non-finite value
here. -/
def convert_default (inbuf : List float32) (in_off : Nat) (outbuf : List Nat) (out_off : Nat)
    (count : Nat) : List Nat :=
  (List.range count).foldl (fun outbuf i =>
    outbuf.set (out_off + i) (convert_default_elem (inbuf.getD (in_off + i) .nonfin))) outbuf

/-! ## The sink block -/

/-- The value of the `BUF_LEN` macro.  The functions below take the transfer
buffer length as the parameter `buf_len`, so that small pools can be
evaluated; the block itself is the instance `buf_len = BUF_LEN`. -/
def BUF_LEN : Nat := 16 * 32 * 512

/-- The value of the `BUF_NUM` macro. -/
def BUF_NUM : Nat := 32

/-- The value of the `BYTES_PER_SAMPLE` macro. -/
def BYTES_PER_SAMPLE : Nat := 2

/-- Conversion to `unsigned int`. -/
def to_uint (x : Int) : Nat := (x % 2 ^ 32).toNat

/-- Conversion of an `unsigned int` value to `int`. -/
def to_int (x : Nat) : Int := ((x : Int) + 2 ^ 31) % 2 ^ 32 - 2 ^ 31

/-- Which converter the preprocessor selected. -/
inductive simd_build where
  | USE_AVX
  | USE_SSE2
  | NONE
deriving DecidableEq

/-- The members of `hackrf_sink_c` the streaming path uses, and the text sent
to `std::cerr`.  `_dev` records whether the device handle is non-null. -/
structure hackrf_sink_c where
  _dev : Bool
  _cbuf : circular_buffer_t
  _buf : List Nat
  _buf_num : Nat
  _buf_used : Nat
  cerr : List String
deriving DecidableEq

/-- The buffer set-up of the constructor: `_buf_num` from the `buffers=`
argument (`BUF_NUM` when absent or zero), `_buf = malloc(BUF_LEN)` and
`cb_init(&_cbuf, _buf_num, BUF_LEN)`.  `s` is the object before these lines ran
(its `_buf_used` is not assigned by the constructor). -/
def hackrf_sink_c.init_buffers (s : hackrf_sink_c) (buf_len : Nat) (buffers : Option Nat)
    (malloc : Nat → Option (List Nat)) : hackrf_sink_c :=
  let _buf_num := 0
  let _buf_num := match buffers with
    | some n => n
    | none => _buf_num
  let _buf_num := if 0 = _buf_num then BUF_NUM else _buf_num
  { s with
    _buf_num := _buf_num
    _buf := (malloc buf_len).getD []
    _cbuf := (cb_init s._cbuf _buf_num buf_len malloc).2 }

/-- Source function `hackrf_sink_c::hackrf_tx_callback(buffer, length)`: the
status returned, the object afterwards, and the memory at `buffer`
afterwards. -/
def hackrf_tx_callback (s : hackrf_sink_c) (buffer : List Nat) (length : Nat) :
    Int × hackrf_sink_c × List Nat :=
  match cb_pop_front s._cbuf buffer with
  | (false, cb, buffer) =>
    (0, { s with _cbuf := cb, cerr := s.cerr ++ ["U"] }, memset buffer 0 length)
  | (true, cb, buffer) =>
    (0, { s with _cbuf := cb }, buffer)

/-- Source function `hackrf_sink_c::start()`.  `ret` is what `hackrf_start_tx`
answers, and `streaming` what `hackrf_is_streaming` answers once the polling
loop has seen it true. -/
def start (s : hackrf_sink_c) (ret : Int) (streaming : Bool) : Bool × hackrf_sink_c :=
  if !s._dev then (false, s)
  else
    let s := { s with _buf_used := 0 }
    if ret ≠ 0 then
      (false, { s with cerr := s.cerr ++ ["Failed to start TX streaming (", toString ret, ")", "\n"] })
    else (streaming, s)

/-- The conversion block of `work()`: `count` complex samples of `in_` go to
`_buf + _buf_used`, through the converter the build selected. -/
def work_convert (build : simd_build) (in_ : List float32) (_buf : List Nat) (_buf_used : Nat)
    (count sse_rem nosse_rem : Nat) : List Nat :=
  match build with
  | .USE_AVX =>
    let _buf := convert_avx in_ 0 _buf _buf_used sse_rem
    convert_default in_ (sse_rem * 8 * 2) _buf (_buf_used + sse_rem * 8 * 2) (nosse_rem * 2)
  | .USE_SSE2 =>
    let _buf := convert_sse2 in_ 0 _buf _buf_used sse_rem
    convert_default in_ (sse_rem * 8 * 2) _buf (_buf_used + sse_rem * 8 * 2) (nosse_rem * 2)
  | .NONE =>
    convert_default in_ 0 _buf _buf_used (count * 2)

/-- Source function `hackrf_sink_c::work()` from the line after the wait for
room to `consume_each`: the object afterwards and the argument of
`consume_each`.  `in_` holds the floats of `input_items[0]`, two per complex
sample.  `remaining` is below `2^31`, so the `unsigned int` products
`count * 2`, `sse_rem * 8 * 2` and `(sse_rem * 8 + nosse_rem) * 2` never wrap;
the subtraction, the addition to `_buf_used` and the two conversions of
`noutput_items` are taken modulo `2^32`. -/
def work_body (build : simd_build) (buf_len : Nat) (s : hackrf_sink_c) (noutput_items : Int)
    (in_ : List float32) : hackrf_sink_c × Int :=
  let prev_buf_used := s._buf_used
  let remaining := to_uint ((buf_len : Int) - s._buf_used) / 2
  let count := min (to_uint noutput_items) remaining
  let sse_rem := count / 8
  let nosse_rem := count % 8
  let _buf := work_convert build in_ s._buf s._buf_used count sse_rem nosse_rem
  let _buf_used := to_uint ((s._buf_used : Int) + (sse_rem * 8 + nosse_rem) * 2)
  let items_consumed := to_int (sse_rem * 8 + nosse_rem)
  let s := { s with _buf := _buf, _buf_used := _buf_used }
  if to_uint noutput_items ≥ remaining then
    match cb_push_back s._cbuf s._buf with
    | (false, cb) =>
      ({ s with _cbuf := cb, _buf_used := prev_buf_used, cerr := s.cerr ++ ["O"] }, 0)
    | (true, cb) =>
      ({ s with _cbuf := cb, _buf_used := 0 }, items_consumed)
  else (s, items_consumed)

/-- Source function `hackrf_sink_c::work()` with no other thread running: it
goes past the wait when the pool has room and waits forever (`none`) when it
has not. -/
def work (build : simd_build) (buf_len : Nat) (s : hackrf_sink_c) (noutput_items : Int)
    (in_ : List float32) : Option (hackrf_sink_c × Int) :=
  if cb_has_room s._cbuf then some (work_body build buf_len s noutput_items in_) else none

/-! ## Well-formed pools -/

/-- A pool as `cb_init` and the calls after it leave it: an allocated block of
`capacity` slots, `head` and `tail` on slot boundaries inside it, and `head`
exactly `count` slots after `tail`, cyclically. -/
def cb_wf (cb : circular_buffer_t) : Prop :=
  ∃ (b : List Nat) (h t : Nat),
    cb.buffer = some b ∧ b.length = cb.capacity * cb.sz ∧
    cb.buffer_end = cb.capacity * cb.sz ∧
    h < cb.capacity ∧ t < cb.capacity ∧
    cb.head = h * cb.sz ∧ cb.tail = t * cb.sz ∧
    cb.count ≤ cb.capacity ∧ h = (t + cb.count) % cb.capacity

/-- An allocator that hands out blocks of the size asked for. -/
def malloc_ok (malloc : Nat → Option (List Nat)) (n : Nat) : Prop :=
  ∃ block, malloc n = some block ∧ block.length = n

/-- What holds of a run on a pool of the given shape: the pool is well-formed
and the buffers pushed so far are those popped so far followed by those still
queued. -/
def cb_trace_inv (capacity sz : Nat) (t : cb_trace) : Prop :=
  cb_wf t.cb ∧ t.cb.capacity = capacity ∧ t.cb.sz = sz ∧
    t.pushed = t.popped ++ cb_contents t.cb

/-! ## Sample data -/

/-- An allocator that always succeeds and hands out zeroed blocks. -/
def demo_malloc (n : Nat) : Option (List Nat) := some (List.replicate n 0)

/-- An object before the constructor has set up its buffers: device open,
nothing allocated, `_buf_used` holding whatever was in memory. -/
def demo_object : hackrf_sink_c :=
  { _dev := true
    _cbuf := ⟨none, 0, 0, 0, 0, 0, 0⟩
    _buf := []
    _buf_num := 0
    _buf_used := 7
    cerr := [] }

/-- A started sink with 16-byte transfer buffers (8 complex samples) and a
pool of `buffers` of them. -/
def demo_sink (buffers : Nat) : hackrf_sink_c :=
  (start (demo_object.init_buffers 16 (some buffers) demo_malloc) 0 true).2

/-- A started sink with 16-byte transfer buffers whose one-buffer pool is
full. -/
def demo_sink_full : hackrf_sink_c :=
  { demo_sink 1 with
    _cbuf := (cb_push_back (demo_sink 1)._cbuf
      [1, 2, 3, 4, 5, 6, 7, 8, 9, 10, 11, 12, 13, 14, 15, 16]).2 }

/-- Sample components `k / 64` for `k = -32 .. 31`: 32 complex samples in
`[-0.5, 0.5)`. -/
def demo_samples : List float32 :=
  (List.range 64).map (fun k => float32.fin ((k : Int) - 32) (-6))

/-- Calls on a pool of two 2-byte slots: two pushes fill it, a third is
rejected, a pop frees the first slot, a push wraps `head` around to reuse it,
three pops empty the pool and a fourth is rejected. -/
def demo_ops : List cb_op :=
  [.push_back [1, 2], .push_back [3, 4], .push_back [5, 6], .pop_front [0, 0],
   .push_back [7, 8], .pop_front [0, 0], .pop_front [0, 0], .pop_front [0, 0]]

/-! ## What the converters compute, element by element -/

/-- One component through the vector path: scale, round to nearest, saturate
to 16 bits, add 127 with 16-bit wrap-around, saturate to a byte. -/
def convert_simd_elem (x : float32) : Nat :=
  sat_u8 (add_i16 (sat_i16 (cvtps2dq (float32.mul x (.fin 127 0)))) 127)

/-- The bytes the conversion block of `work()` is meant to put at the staging
offset for `count` complex samples: the whole batches of 8 samples through the
vector path and the rest through `convert_default` in a vector build,
everything through `convert_default` otherwise. -/
def converted (build : simd_build) (in_ : List float32) (count : Nat) : List Nat :=
  match build with
  | .NONE => (in_.take (count * 2)).map convert_default_elem
  | _ =>
    (in_.take (count / 8 * 16)).map convert_simd_elem ++
      ((in_.drop (count / 8 * 16)).take (count % 8 * 2)).map convert_default_elem

/-! ## Runs of the sink -/

/-- One call of `cb_push_back` made by `work()`: the staging offset before the
call, the number of samples the call converted, the staging buffer handed to
the pool, the bytes the converter has produced since the staging buffer was
last empty, and whether the pool took the buffer. -/
structure publish_record where
  offset : Nat
  count : Nat
  buffer : List Nat
  expected : List Nat
  accepted : Bool
deriving DecidableEq

/-- A sink together with what an observer has seen: `fresh` is the converter
output since the staging buffer was last empty, `log` the publish attempts in
call order. -/
structure sink_trace where
  s : hackrf_sink_c
  fresh : List Nat
  log : List publish_record
deriving DecidableEq

/-- What happens to a started sink: the scheduler runs `work()`, or the
hardware thread runs the transfer callback. -/
inductive sink_event where
  | work (noutput_items : Int) (in_ : List float32)
  | tx_callback (buffer : List Nat) (length : Nat)
deriving DecidableEq

/-- One event, observed.  A `work()` call is taken from the point where its
wait for room is over, so the pool it meets at the publish attempt may be in
any state the other thread can have left. -/
def sink_step (build : simd_build) (buf_len : Nat) (t : sink_trace) : sink_event → sink_trace
  | .work noutput_items in_ =>
    let remaining := to_uint ((buf_len : Int) - t.s._buf_used) / 2
    let count := min (to_uint noutput_items) remaining
    let r := work_body build buf_len t.s noutput_items in_
    if to_uint noutput_items ≥ remaining then
      let accepted := (cb_push_back t.s._cbuf r.1._buf).1
      { s := r.1
        fresh := if accepted then [] else t.fresh
        log := t.log ++
          [⟨t.s._buf_used, count, r.1._buf, t.fresh ++ converted build in_ count, accepted⟩] }
    else
      { s := r.1, fresh := t.fresh ++ converted build in_ count, log := t.log }
  | .tx_callback buffer length =>
    { t with s := (hackrf_tx_callback t.s buffer length).2.1 }

/-- A sequence of events, observed. -/
def sink_run (build : simd_build) (buf_len : Nat) (t : sink_trace) (events : List sink_event) :
    sink_trace :=
  events.foldl (sink_step build buf_len) t

/-- A `work()` call as the scheduler makes it: a non-negative `int` number of
items, and an input buffer holding that many complex samples. -/
def sink_event.valid : sink_event → Prop
  | .work noutput_items in_ =>
    0 ≤ noutput_items ∧ noutput_items < 2 ^ 31 ∧ noutput_items.toNat * 2 ≤ in_.length
  | .tx_callback _ _ => True

/-- What holds of an observed run: the staging buffer has `buf_len` bytes, the
offset is even and inside it, the bytes below the offset are the converter
output since the buffer was last empty, and every publish attempt handed over
a buffer filled to exactly `buf_len` bytes of converter output. -/
def sink_trace_inv (buf_len : Nat) (t : sink_trace) : Prop :=
  t.s._buf.length = buf_len ∧ t.s._buf_used ≤ buf_len ∧ t.s._buf_used % 2 = 0 ∧
    t.s._buf.take t.s._buf_used = t.fresh ∧
    ∀ r ∈ t.log, r.offset + 2 * r.count = buf_len ∧ r.buffer.length = buf_len ∧
      r.buffer = r.expected

/-- Modelled from the spec: the upstream sample source, which is outside this
repository.  It offers `work()` every sample it holds, drops the ones reported
consumed and offers the rest again on the next call, until none is left; no
transfer callback runs in between.  `fuel` bounds the number of calls; the
result is the final sink and the total reported consumed, or `none` when a
call waits forever or the fuel runs out. -/
def feed (build : simd_build) (buf_len : Nat) :
    Nat → hackrf_sink_c → List float32 → Option (hackrf_sink_c × Int)
  | 0, s, in_ => if in_.length / 2 = 0 then some (s, 0) else none
  | fuel + 1, s, in_ =>
    if in_.length / 2 = 0 then some (s, 0)
    else
      match work build buf_len s ((in_.length / 2 : Nat) : Int) in_ with
      | none => none
      | some (s1, consumed) =>
        match feed build buf_len fuel s1 (in_.drop (2 * consumed.toNat)) with
        | none => none
        | some (s2, total) => some (s2, consumed + total)

/-- A run that meets every case: a partial fill, a fill that completes the
buffer and is published, a call on a full pool whose publish is rejected, a
callback that frees the slot, and the retry. -/
def demo_events : List sink_event :=
  [.work 5 demo_samples, .work 20 (demo_samples.drop 10), .work 8 (demo_samples.drop 16),
   .tx_callback (List.replicate 16 9) 16, .work 8 (demo_samples.drop 16)]

/-- The staging offset is strictly inside the staging buffer and on a sample
boundary. -/
def staging_inv (buf_len : Nat) (s : hackrf_sink_c) : Prop :=
  s._buf_used < buf_len ∧ s._buf_used % BYTES_PER_SAMPLE = 0

/-! # Theorems -/

/-! ## Memory lemmas -/


theorem length_memcpy (dst : List Nat) (off : Nat) (src : List Nat) (n : Nat)
    (h1 : off + n ≤ dst.length) (h2 : n ≤ src.length) :
    (memcpy dst off src n).length = dst.length := by
  simp [memcpy]
  omega

theorem getElem?_memcpy (dst : List Nat) (off : Nat) (src : List Nat) (n k : Nat)
    (h1 : off + n ≤ dst.length) (h2 : n ≤ src.length) :
    (memcpy dst off src n)[k]? =
      if k < off then dst[k]? else if k < off + n then src[k - off]? else dst[k]? := by
  unfold memcpy
  by_cases hk : k < off
  · simp only [hk, if_true]
    rw [List.append_assoc, List.getElem?_append_left (by simp; omega)]
    simp [List.getElem?_take, hk]
  · simp only [hk, if_false]
    by_cases hk2 : k < off + n
    · simp only [hk2, if_true]
      rw [List.getElem?_append_left (by simp; omega)]
      rw [List.getElem?_append_right (by simp; omega)]
      have : (List.take off dst).length = off := by simp; omega
      rw [this, List.getElem?_take]
      simp; omega
    · simp only [hk2, if_false]
      rw [List.getElem?_append_right (by simp; omega)]
      simp
      congr 1
      omega

theorem slot_memcpy_other (dst : List Nat) (off : Nat) (src : List Nat) (n c : Nat)
    (h1 : off + n ≤ dst.length) (h2 : n ≤ src.length)
    (h3 : c + n ≤ off ∨ off + n ≤ c) :
    ((memcpy dst off src n).drop c).take n = (dst.drop c).take n := by
  apply List.ext_getElem?
  intro k
  simp only [List.getElem?_take, List.getElem?_drop]
  by_cases hk : k < n
  · simp only [hk, if_true]
    rw [getElem?_memcpy dst off src n (c + k) h1 h2]
    rcases h3 with h3 | h3
    · rw [if_pos (by omega)]
    · rw [if_neg (by omega), if_neg (by omega)]
  · simp [hk]

theorem slot_memcpy_same (dst : List Nat) (off : Nat) (src : List Nat) (n : Nat)
    (h1 : off + n ≤ dst.length) (h2 : n ≤ src.length) :
    ((memcpy dst off src n).drop off).take n = src.take n := by
  apply List.ext_getElem?
  intro k
  simp only [List.getElem?_take, List.getElem?_drop]
  by_cases hk : k < n
  · simp only [hk, if_true]
    rw [getElem?_memcpy dst off src n (off + k) h1 h2]
    rw [if_neg (by omega), if_pos (by omega)]
    congr 1
    omega
  · simp [hk]

/-! ## The pool as a queue -/

theorem next_offset (cap sz t : Nat) (ht : t < cap) :
    (if t * sz + sz = cap * sz then 0 else t * sz + sz) = ((t + 1) % cap) * sz := by
  have e : t * sz + sz = (t + 1) * sz := by ring
  by_cases h : t + 1 = cap
  · rw [if_pos (by rw [e, h]), h, Nat.mod_self, Nat.zero_mul]
  · have hlt : t + 1 < cap := by omega
    rw [Nat.mod_eq_of_lt hlt]
    rcases Nat.eq_zero_or_pos sz with hz | hz
    · subst hz; simp
    · rw [if_neg, e]
      rw [e]
      exact Nat.ne_of_lt (Nat.mul_lt_mul_of_pos_right hlt hz)

theorem cb_slots_eq_map (b : List Nat) (cap sz : Nat) (n : Nat) :
    ∀ t, t < cap →
      cb_slots b (cap * sz) sz n (t * sz) =
        (List.range n).map (fun i => (b.drop (((t + i) % cap) * sz)).take sz) := by
  induction n with
  | zero => intro t _; simp [cb_slots]
  | succ n ih =>
    intro t ht
    have hpos : 0 < cap := by omega
    rw [cb_slots, next_offset cap sz t ht, ih _ (Nat.mod_lt _ hpos), List.range_succ_eq_map,
      List.map_cons, List.map_map]
    congr 1
    · rw [Nat.add_zero, Nat.mod_eq_of_lt ht]
    · apply List.map_congr_left
      intro i _
      simp only [Function.comp, Nat.succ_eq_add_one]
      rw [Nat.mod_add_mod, Nat.add_assoc, Nat.add_comm 1 i]

theorem length_cb_slots (b : List Nat) (e sz : Nat) (n : Nat) :
    ∀ off, (cb_slots b e sz n off).length = n := by
  induction n with
  | zero => intro off; simp [cb_slots]
  | succ n ih => intro off; simp [cb_slots, ih]

theorem length_cb_contents (cb : circular_buffer_t) : (cb_contents cb).length = cb.count := by
  simp [cb_contents, length_cb_slots]

theorem mod_index_ne (cap t i c : Nat) (hi : i < c) (hc : c < cap) :
    (t + i) % cap ≠ (t + c) % cap := by
  intro h
  have h1 : i ≡ c [MOD cap] := Nat.ModEq.add_left_cancel' t h
  have h2 : i % cap = c % cap := h1
  rw [Nat.mod_eq_of_lt (by omega), Nat.mod_eq_of_lt hc] at h2
  omega

theorem slot_disjoint (sz j h : Nat) (hne : j ≠ h) :
    j * sz + sz ≤ h * sz ∨ h * sz + sz ≤ j * sz := by
  rcases Nat.lt_or_gt_of_ne hne with hlt | hgt
  · left
    have : (j + 1) * sz ≤ h * sz := Nat.mul_le_mul_right sz hlt
    rw [Nat.add_mul, Nat.one_mul] at this
    exact this
  · right
    have : (h + 1) * sz ≤ j * sz := Nat.mul_le_mul_right sz hgt
    rw [Nat.add_mul, Nat.one_mul] at this
    exact this

theorem slot_in_bounds (cap sz h : Nat) (hh : h < cap) : h * sz + sz ≤ cap * sz := by
  have : (h + 1) * sz ≤ cap * sz := Nat.mul_le_mul_right sz hh
  rw [Nat.add_mul, Nat.one_mul] at this
  exact this

/-- A successful `cb_init` yields a well-formed, empty pool. -/
theorem cb_init_wf (cb0 : circular_buffer_t) (capacity sz : Nat)
    (malloc : Nat → Option (List Nat)) (hcap : 1 ≤ capacity)
    (hsize : capacity * sz < SIZE_MOD) (hm : malloc_ok malloc (capacity * sz)) :
    (cb_init cb0 capacity sz malloc).1 = true ∧
    cb_wf (cb_init cb0 capacity sz malloc).2 ∧
    (cb_init cb0 capacity sz malloc).2.capacity = capacity ∧
    (cb_init cb0 capacity sz malloc).2.sz = sz ∧
    (cb_init cb0 capacity sz malloc).2.count = 0 := by
  obtain ⟨block, hb, hlen⟩ := hm
  have e : cb_init cb0 capacity sz malloc =
      (true, ⟨some block, capacity * sz, capacity, 0, sz, 0, 0⟩) := by
    simp only [cb_init, Nat.mod_eq_of_lt hsize, hb]
  rw [e]
  refine ⟨rfl, ⟨block, 0, 0, rfl, hlen, rfl, hcap, hcap, ?_, ?_, Nat.zero_le _, ?_⟩, rfl, rfl, rfl⟩
  · exact (Nat.zero_mul _).symm
  · exact (Nat.zero_mul _).symm
  · simp

/-- A push into a well-formed pool that is not full appends the item to the
queue and keeps the pool well-formed. -/
theorem cb_push_back_ok (cb : circular_buffer_t) (item : List Nat) (hwf : cb_wf cb)
    (hlen : item.length = cb.sz) (hroom : cb.count ≠ cb.capacity) :
    (cb_push_back cb item).1 = true ∧
    cb_wf (cb_push_back cb item).2 ∧
    (cb_push_back cb item).2.capacity = cb.capacity ∧
    (cb_push_back cb item).2.sz = cb.sz ∧
    (cb_push_back cb item).2.count = cb.count + 1 ∧
    cb_contents (cb_push_back cb item).2 = cb_contents cb ++ [item] := by
  obtain ⟨b, h, t, hb, hbl, hend, hh, ht, hhead, htail, hcnt, hht⟩ := hwf
  have hpos : 0 < cb.capacity := by omega
  have hclt : cb.count < cb.capacity := by omega
  have hin := slot_in_bounds cb.capacity cb.sz h hh
  have e : cb_push_back cb item =
      (true, ⟨some (memcpy b (h * cb.sz) item cb.sz), cb.buffer_end, cb.capacity, cb.count + 1,
        cb.sz, ((h + 1) % cb.capacity) * cb.sz, cb.tail⟩) := by
    simp only [cb_push_back, if_neg hroom, hb, Option.map_some', hhead, hend,
      next_offset cb.capacity cb.sz h hh]
  rw [e]
  refine ⟨rfl, ⟨_, (h + 1) % cb.capacity, t, rfl, ?_, hend, Nat.mod_lt _ hpos, ht, rfl, htail,
    hclt, ?_⟩, rfl, rfl, rfl, ?_⟩
  · show (memcpy b (h * cb.sz) item cb.sz).length = cb.capacity * cb.sz
    rw [length_memcpy _ _ _ _ (by rw [hbl]; exact hin) (by omega)]
    exact hbl
  · show (h + 1) % cb.capacity = (t + (cb.count + 1)) % cb.capacity
    rw [hht, Nat.mod_add_mod, Nat.add_assoc]
  · show cb_slots (memcpy b (h * cb.sz) item cb.sz) cb.buffer_end cb.sz (cb.count + 1) cb.tail =
      cb_slots ((cb.buffer).getD []) cb.buffer_end cb.sz cb.count cb.tail ++ [item]
    rw [hb, Option.getD_some, hend, htail, cb_slots_eq_map _ _ _ _ _ ht,
      cb_slots_eq_map _ _ _ _ _ ht, List.range_succ, List.map_append, List.map_singleton]
    congr 1
    · apply List.map_congr_left
      intro i hi
      rw [List.mem_range] at hi
      apply slot_memcpy_other _ _ _ _ _ (by rw [hbl]; exact hin) (by omega)
      apply slot_disjoint
      rw [hht]
      exact mod_index_ne cb.capacity t i cb.count hi hclt
    · rw [← hht, slot_memcpy_same _ _ _ _ (by rw [hbl]; exact hin) (by omega)]
      rw [← hlen, List.take_length]

/-- A pop from a well-formed pool that is not empty removes the oldest buffer
of the queue, delivers it in the first `sz` bytes of the destination, and keeps
the pool well-formed. -/
theorem cb_pop_front_ok (cb : circular_buffer_t) (item : List Nat) (hwf : cb_wf cb)
    (hne : cb.count ≠ 0) :
    (cb_pop_front cb item).1 = true ∧
    cb_wf (cb_pop_front cb item).2.1 ∧
    (cb_pop_front cb item).2.1.capacity = cb.capacity ∧
    (cb_pop_front cb item).2.1.sz = cb.sz ∧
    (cb_pop_front cb item).2.1.count + 1 = cb.count ∧
    cb_contents cb =
      (cb_pop_front cb item).2.2.take cb.sz :: cb_contents (cb_pop_front cb item).2.1 ∧
    (cb_pop_front cb item).2.2 = (cb_contents cb).headD [] ++ item.drop cb.sz := by
  obtain ⟨b, h, t, hb, hbl, hend, hh, ht, hhead, htail, hcnt, hht⟩ := hwf
  have hpos : 0 < cb.capacity := by omega
  have hin := slot_in_bounds cb.capacity cb.sz t ht
  obtain ⟨c, hc⟩ : ∃ c, cb.count = c + 1 := ⟨cb.count - 1, by omega⟩
  have hslot : ((b.drop (t * cb.sz)).take cb.sz).length = cb.sz := by
    simp only [List.length_take, List.length_drop]
    rw [hbl]
    omega
  have hout : memcpy item 0 (b.drop (t * cb.sz)) cb.sz =
      (b.drop (t * cb.sz)).take cb.sz ++ item.drop cb.sz := by
    simp [memcpy]
  have e : cb_pop_front cb item =
      (true, ⟨some b, cb.buffer_end, cb.capacity, c, cb.sz, cb.head,
        ((t + 1) % cb.capacity) * cb.sz⟩,
        (b.drop (t * cb.sz)).take cb.sz ++ item.drop cb.sz) := by
    simp only [cb_pop_front, if_neg hne, hb, Option.getD_some, htail, hout, hend,
      next_offset cb.capacity cb.sz t ht, hc, Nat.add_sub_cancel, Nat.add_one_ne_zero, if_false]
  have ec : cb_contents cb = (b.drop (t * cb.sz)).take cb.sz ::
      cb_slots b cb.buffer_end cb.sz c (((t + 1) % cb.capacity) * cb.sz) := by
    simp only [cb_contents, hb, Option.getD_some, hc, cb_slots, htail, hend,
      next_offset cb.capacity cb.sz t ht]
  rw [e, ec]
  refine ⟨rfl, ⟨b, h, (t + 1) % cb.capacity, rfl, hbl, hend, hh, Nat.mod_lt _ hpos, hhead, rfl,
    by show c ≤ cb.capacity; omega, ?_⟩, rfl, rfl, hc.symm, ?_, rfl⟩
  · show h = ((t + 1) % cb.capacity + c) % cb.capacity
    rw [hht, Nat.mod_add_mod, hc]
    congr 1
    omega
  · show _ = List.take cb.sz ((b.drop (t * cb.sz)).take cb.sz ++ item.drop cb.sz) :: _
    rw [List.take_left' hslot]
    rfl

theorem cb_push_back_full (cb : circular_buffer_t) (item : List Nat)
    (h : cb.count = cb.capacity) : cb_push_back cb item = (false, cb) := by
  simp only [cb_push_back, if_pos h]

theorem cb_pop_front_empty (cb : circular_buffer_t) (item : List Nat)
    (h : cb.count = 0) : cb_pop_front cb item = (false, cb, item) := by
  simp only [cb_pop_front, if_pos h]

theorem cb_step_inv (capacity sz : Nat) (t : cb_trace) (op : cb_op)
    (hinv : cb_trace_inv capacity sz t) (hfit : op.fits sz) :
    cb_trace_inv capacity sz (cb_step t op) := by
  obtain ⟨hwf, hcap, hsz, hq⟩ := hinv
  cases op with
  | push_back item =>
    by_cases hfull : t.cb.count = t.cb.capacity
    · simp only [cb_step, cb_push_back_full _ _ hfull]
      exact ⟨hwf, hcap, hsz, hq⟩
    · have hlen : item.length = t.cb.sz := by rw [hsz]; exact hfit
      obtain ⟨h1, h2, h3, h4, _, h6⟩ := cb_push_back_ok t.cb item hwf hlen hfull
      cases hr : cb_push_back t.cb item with
      | mk r cb2 =>
        rw [hr] at h1 h2 h3 h4 h6
        simp only at h1 h2 h3 h4 h6
        subst h1
        simp only [cb_step, hr]
        refine ⟨h2, h3.trans hcap, h4.trans hsz, ?_⟩
        show t.pushed ++ [item] = t.popped ++ cb_contents cb2
        rw [h6, hq, List.append_assoc]
  | pop_front item =>
    by_cases hempty : t.cb.count = 0
    · simp only [cb_step, cb_pop_front_empty _ _ hempty]
      exact ⟨hwf, hcap, hsz, hq⟩
    · obtain ⟨h1, h2, h3, h4, _, h6, _⟩ := cb_pop_front_ok t.cb item hwf hempty
      cases hr : cb_pop_front t.cb item with
      | mk r rest =>
        cases rest with
        | mk cb2 out =>
          rw [hr] at h1 h2 h3 h4 h6
          simp only at h1 h2 h3 h4 h6
          subst h1
          simp only [cb_step, hr]
          refine ⟨h2, h3.trans hcap, h4.trans hsz, ?_⟩
          show t.pushed = (t.popped ++ [out.take t.cb.sz]) ++ cb_contents cb2
          rw [hq, h6, List.append_assoc, List.singleton_append]

theorem cb_run_inv (capacity sz : Nat) (ops : List cb_op) :
    ∀ t : cb_trace, cb_trace_inv capacity sz t → (∀ op ∈ ops, op.fits sz) →
      cb_trace_inv capacity sz (cb_run t ops) := by
  induction ops with
  | nil => intro t h _; exact h
  | cons op ops ih =>
    intro t h hfits
    show cb_trace_inv capacity sz (cb_run (cb_step t op) ops)
    exact ih _ (cb_step_inv capacity sz t op h (hfits op (List.mem_cons_self _ _)))
      (fun o ho => hfits o (List.mem_cons_of_mem _ ho))

theorem cb_step_count (t : cb_trace) (op : cb_op) (h : t.cb.count ≤ t.cb.capacity) :
    (cb_step t op).cb.capacity = t.cb.capacity ∧
      (cb_step t op).cb.count ≤ (cb_step t op).cb.capacity := by
  cases op with
  | push_back item =>
    by_cases hfull : t.cb.count = t.cb.capacity
    · simp only [cb_step, cb_push_back_full _ _ hfull]
      exact ⟨by trivial, h⟩
    · simp only [cb_step, cb_push_back, if_neg hfull]
      exact ⟨by trivial, by show t.cb.count + 1 ≤ t.cb.capacity; omega⟩
  | pop_front item =>
    by_cases hempty : t.cb.count = 0
    · simp only [cb_step, cb_pop_front_empty _ _ hempty]
      exact ⟨by trivial, h⟩
    · simp only [cb_step, cb_pop_front, if_neg hempty]
      exact ⟨by trivial, by show t.cb.count - 1 ≤ t.cb.capacity; omega⟩

theorem cb_run_count (ops : List cb_op) :
    ∀ t : cb_trace, t.cb.count ≤ t.cb.capacity →
      (cb_run t ops).cb.capacity = t.cb.capacity ∧
        (cb_run t ops).cb.count ≤ (cb_run t ops).cb.capacity := by
  induction ops with
  | nil => intro t h; exact ⟨rfl, h⟩
  | cons op ops ih =>
    intro t h
    show (cb_run (cb_step t op) ops).cb.capacity = t.cb.capacity ∧ _
    obtain ⟨h1, h2⟩ := cb_step_count t op h
    obtain ⟨h3, h4⟩ := ih _ h2
    exact ⟨h3.trans h1, h4⟩

/-! ## The claims about the buffer pool -/

/-- C1. FIFO ordering: after any sequence of pushes (of buffers of the slot
size) and pops on a freshly initialised pool of capacity at least 1, the
buffers pushed successfully are exactly the buffers popped successfully, in
order, followed by the `count` slots queued from `tail` on; so the popped
buffers are a prefix of the pushed ones, wrap-around included. -/
theorem cb_fifo_order (cb0 : circular_buffer_t) (capacity sz : Nat)
    (malloc : Nat → Option (List Nat)) (ops : List cb_op)
    (hcap : 1 ≤ capacity) (hsize : capacity * sz < SIZE_MOD)
    (hm : malloc_ok malloc (capacity * sz)) (hfits : ∀ op ∈ ops, op.fits sz) :
    (cb_run ⟨(cb_init cb0 capacity sz malloc).2, [], []⟩ ops).pushed =
      (cb_run ⟨(cb_init cb0 capacity sz malloc).2, [], []⟩ ops).popped ++
        cb_contents (cb_run ⟨(cb_init cb0 capacity sz malloc).2, [], []⟩ ops).cb ∧
    (cb_run ⟨(cb_init cb0 capacity sz malloc).2, [], []⟩ ops).popped <+:
      (cb_run ⟨(cb_init cb0 capacity sz malloc).2, [], []⟩ ops).pushed ∧
    (cb_contents (cb_run ⟨(cb_init cb0 capacity sz malloc).2, [], []⟩ ops).cb).length =
      (cb_run ⟨(cb_init cb0 capacity sz malloc).2, [], []⟩ ops).cb.count ∧
    (cb_run ⟨(cb_init cb0 capacity sz malloc).2, [], []⟩ ops).cb.count ≤ capacity := by
  obtain ⟨_, hwf, hc, hs, hcount⟩ := cb_init_wf cb0 capacity sz malloc hcap hsize hm
  have h0 : cb_trace_inv capacity sz ⟨(cb_init cb0 capacity sz malloc).2, [], []⟩ := by
    refine ⟨hwf, hc, hs, ?_⟩
    simp [cb_contents, hcount, cb_slots]
  obtain ⟨hwf2, hc2, _, hq⟩ := cb_run_inv capacity sz ops _ h0 hfits
  refine ⟨hq, ⟨_, hq.symm⟩, length_cb_contents _, ?_⟩
  obtain ⟨_, _, _, _, _, _, _, _, _, _, hle, _⟩ := hwf2
  exact Nat.le_trans hle (Nat.le_of_eq hc2)

theorem cb_fifo_order_witness :
    (1 ≤ 2 ∧ 2 * 2 < SIZE_MOD ∧ malloc_ok demo_malloc (2 * 2) ∧ ∀ op ∈ demo_ops, op.fits 2) ∧
    (cb_run ⟨(cb_init demo_object._cbuf 2 2 demo_malloc).2, [], []⟩ demo_ops).pushed =
      (cb_run ⟨(cb_init demo_object._cbuf 2 2 demo_malloc).2, [], []⟩ demo_ops).popped ++
        cb_contents (cb_run ⟨(cb_init demo_object._cbuf 2 2 demo_malloc).2, [], []⟩ demo_ops).cb ∧
    (cb_run ⟨(cb_init demo_object._cbuf 2 2 demo_malloc).2, [], []⟩ demo_ops).popped =
      [[1, 2], [3, 4], [7, 8]] :=
  have hfits : ∀ op ∈ demo_ops, op.fits 2 := by
    intro op hop
    simp only [demo_ops, List.mem_cons, List.mem_singleton, List.mem_nil_iff, or_false] at hop
    rcases hop with h | h | h | h | h | h | h | h <;> subst h <;> simp [cb_op.fits]
  have hm : malloc_ok demo_malloc (2 * 2) := ⟨_, rfl, by decide⟩
  ⟨⟨by decide, by decide, hm, hfits⟩,
    (cb_fifo_order demo_object._cbuf 2 2 demo_malloc demo_ops (by decide) (by decide) hm hfits).1,
    by decide⟩

/-- C2. Rejection without mutation: a push is rejected exactly when
`count == capacity`, a pop exactly when `count == 0`; a rejected call returns
the pool with every field as it was, and a rejected pop returns the
destination as it was. -/
theorem cb_reject_no_mutation (cb : circular_buffer_t) (item : List Nat) :
    ((cb_push_back cb item).1 = false ↔ cb.count = cb.capacity) ∧
    ((cb_push_back cb item).1 = false → (cb_push_back cb item).2 = cb) ∧
    ((cb_pop_front cb item).1 = false ↔ cb.count = 0) ∧
    ((cb_pop_front cb item).1 = false →
      (cb_pop_front cb item).2.1 = cb ∧ (cb_pop_front cb item).2.2 = item) := by
  refine ⟨?_, ?_, ?_, ?_⟩
  · by_cases h : cb.count = cb.capacity <;> simp [cb_push_back, h]
  · by_cases h : cb.count = cb.capacity <;> simp [cb_push_back, h]
  · by_cases h : cb.count = 0 <;> simp [cb_pop_front, h]
  · by_cases h : cb.count = 0 <;> simp [cb_pop_front, h]

/-- C3. Capacity invariant: after any sequence of pushes and pops on a pool
that `cb_init` set up with the given capacity, the capacity is unchanged and
`count` is at most the capacity; from such a state an accepted push raises
`count` by exactly one, an accepted pop lowers it by exactly one, and a
rejected call leaves it alone. -/
theorem cb_count_invariant (cb0 : circular_buffer_t) (capacity sz : Nat)
    (malloc : Nat → Option (List Nat)) (ops : List cb_op) (item : List Nat)
    (hinit : (cb_init cb0 capacity sz malloc).1 = true) :
    (cb_run ⟨(cb_init cb0 capacity sz malloc).2, [], []⟩ ops).cb.capacity = capacity ∧
    (cb_run ⟨(cb_init cb0 capacity sz malloc).2, [], []⟩ ops).cb.count ≤ capacity ∧
    ((cb_push_back (cb_run ⟨(cb_init cb0 capacity sz malloc).2, [], []⟩ ops).cb item).1 = true →
      (cb_push_back (cb_run ⟨(cb_init cb0 capacity sz malloc).2, [], []⟩ ops).cb item).2.count =
        (cb_run ⟨(cb_init cb0 capacity sz malloc).2, [], []⟩ ops).cb.count + 1) ∧
    ((cb_push_back (cb_run ⟨(cb_init cb0 capacity sz malloc).2, [], []⟩ ops).cb item).1 = false →
      (cb_push_back (cb_run ⟨(cb_init cb0 capacity sz malloc).2, [], []⟩ ops).cb item).2.count =
        (cb_run ⟨(cb_init cb0 capacity sz malloc).2, [], []⟩ ops).cb.count) ∧
    ((cb_pop_front (cb_run ⟨(cb_init cb0 capacity sz malloc).2, [], []⟩ ops).cb item).1 = true →
      (cb_pop_front (cb_run ⟨(cb_init cb0 capacity sz malloc).2, [], []⟩ ops).cb item).2.1.count + 1 =
        (cb_run ⟨(cb_init cb0 capacity sz malloc).2, [], []⟩ ops).cb.count) ∧
    ((cb_pop_front (cb_run ⟨(cb_init cb0 capacity sz malloc).2, [], []⟩ ops).cb item).1 = false →
      (cb_pop_front (cb_run ⟨(cb_init cb0 capacity sz malloc).2, [], []⟩ ops).cb item).2.1.count =
        (cb_run ⟨(cb_init cb0 capacity sz malloc).2, [], []⟩ ops).cb.count) := by
  have hi : (cb_init cb0 capacity sz malloc).2.capacity = capacity ∧
      (cb_init cb0 capacity sz malloc).2.count = 0 := by
    unfold cb_init at hinit ⊢
    cases hmal : malloc (capacity * sz % SIZE_MOD) with
    | none => rw [hmal] at hinit; simp at hinit
    | some block => exact ⟨rfl, rfl⟩
  obtain ⟨h1, h2⟩ := cb_run_count ops ⟨(cb_init cb0 capacity sz malloc).2, [], []⟩
    (by show (cb_init cb0 capacity sz malloc).2.count ≤ _; rw [hi.2]; exact Nat.zero_le _)
  generalize cb_run ⟨(cb_init cb0 capacity sz malloc).2, [], []⟩ ops = t at h1 h2 ⊢
  have h1 : t.cb.capacity = capacity := h1.trans hi.1
  refine ⟨h1, h1 ▸ h2, ?_, ?_, ?_, ?_⟩
  · by_cases h : t.cb.count = t.cb.capacity <;> simp [cb_push_back, h]
  · by_cases h : t.cb.count = t.cb.capacity <;> simp [cb_push_back, h]
  · by_cases h : t.cb.count = 0 <;> simp [cb_pop_front, h]
    omega
  · by_cases h : t.cb.count = 0 <;> simp [cb_pop_front, h]

theorem cb_count_invariant_witness :
    (cb_init demo_object._cbuf 2 2 demo_malloc).1 = true ∧
    (cb_run ⟨(cb_init demo_object._cbuf 2 2 demo_malloc).2, [], []⟩ (demo_ops.take 5)).cb.count
      ≤ 2 ∧
    (cb_run ⟨(cb_init demo_object._cbuf 2 2 demo_malloc).2, [], []⟩ (demo_ops.take 5)).cb.count
      = 2 :=
  ⟨by decide,
    (cb_count_invariant demo_object._cbuf 2 2 demo_malloc (demo_ops.take 5) [] (by decide)).2.1,
    by decide⟩

/-! ## The converters as element-wise maps -/

theorem zipWith_replicate_right {α β γ : Type} (f : α → β → γ) (c : β) :
    ∀ (l : List α) (n : Nat), l.length ≤ n →
      List.zipWith f l (List.replicate n c) = l.map (fun x => f x c) := by
  intro l
  induction l with
  | nil => intro n _; simp
  | cons a l ih =>
    intro n hn
    cases n with
    | zero => simp at hn
    | succ n =>
      rw [List.replicate_succ, List.zipWith_cons_cons, ih n (by simpa using hn)]
      rfl

theorem memcpy_extend (out : List Nat) (oo : Nat) (M src : List Nat) (n : Nat)
    (h1 : oo + M.length + n ≤ out.length) (h2 : src.length = n) :
    memcpy (out.take oo ++ M ++ out.drop (oo + M.length)) (oo + M.length) src n =
      out.take oo ++ (M ++ src) ++ out.drop (oo + (M ++ src).length) := by
  have hP : (out.take oo ++ M).length = oo + M.length := by
    simp only [List.length_append, List.length_take]
    omega
  unfold memcpy
  rw [← hP, List.take_left, ← h2, List.take_length]
  rw [show (out.take oo ++ M).length + src.length = (out.take oo ++ M).length + src.length from rfl,
    ← List.drop_drop, List.drop_left, List.drop_drop, hP, List.length_append]
  simp only [List.append_assoc, Nat.add_assoc]

theorem set_eq_memcpy (l : List Nat) (i v : Nat) (h : i < l.length) :
    l.set i v = memcpy l i [v] 1 := by
  apply List.ext_getElem?
  intro k
  rw [getElem?_memcpy l i [v] 1 k (by omega) (by simp), List.getElem?_set]
  by_cases hk : i = k
  · subst hk
    simp [h]
  · rw [if_neg hk]
    by_cases hk2 : k < i
    · rw [if_pos hk2]
    · rw [if_neg hk2, if_neg (by omega)]

theorem drop_add_eq (l : List float32) (o k : Nat) : l.drop (o + k) = (l.drop o).drop k := by
  rw [List.drop_drop]

theorem take_sixteen (L : List float32) :
    L.take 4 ++ (L.drop 4).take 4 ++ (L.drop 8).take 4 ++ (L.drop 12).take 4 = L.take 16 := by
  rw [show (16 : Nat) = 4 + (4 + (4 + 4)) from rfl, List.take_add, List.take_add, List.take_add,
    List.drop_drop, List.drop_drop]
  simp only [List.append_assoc]

theorem take_eight_eight (L : List float32) :
    L.take 8 ++ (L.drop 8).take 8 = L.take 16 := by
  rw [show (16 : Nat) = 8 + 8 from rfl, List.take_add]

/-- One iteration of the `convert_sse2` loop body computes `convert_simd_elem`
on each of the 16 floats it loads. -/
theorem sse2_batch (inbuf : List float32) (o : Nat) :
    _mm_packus_epi16
      (_mm_add_epi16 (_mm_packs_epi32
        (_mm_cvtps_epi32 (_mm_mul_ps (_mm_loadu_ps inbuf (o + 0)) (_mm_set_ps (.fin 127 0))))
        (_mm_cvtps_epi32 (_mm_mul_ps (_mm_loadu_ps inbuf (o + 4)) (_mm_set_ps (.fin 127 0)))))
        (_mm_set_epi16 127))
      (_mm_add_epi16 (_mm_packs_epi32
        (_mm_cvtps_epi32 (_mm_mul_ps (_mm_loadu_ps inbuf (o + 8)) (_mm_set_ps (.fin 127 0))))
        (_mm_cvtps_epi32 (_mm_mul_ps (_mm_loadu_ps inbuf (o + 12)) (_mm_set_ps (.fin 127 0)))))
        (_mm_set_epi16 127)) =
    ((inbuf.drop o).take 16).map convert_simd_elem := by
  simp only [_mm_packus_epi16, _mm_add_epi16, _mm_packs_epi32, _mm_cvtps_epi32, _mm_mul_ps,
    _mm_loadu_ps, _mm_set_ps, _mm_set_epi16, drop_add_eq, List.drop_zero]
  generalize inbuf.drop o = L
  have l4 : ∀ X : List float32, (X.take 4).length ≤ 4 := fun X => by
    rw [List.length_take]; exact Nat.min_le_left _ _
  rw [zipWith_replicate_right _ _ _ 4 (l4 _), zipWith_replicate_right _ _ _ 4 (l4 _),
    zipWith_replicate_right _ _ _ 4 (l4 _), zipWith_replicate_right _ _ _ 4 (l4 _)]
  rw [zipWith_replicate_right _ _ _ 8 (by
      simp only [List.length_map, List.length_append]
      have := l4 L; have := l4 (L.drop 4); omega),
    zipWith_replicate_right _ _ _ 8 (by
      simp only [List.length_map, List.length_append]
      have := l4 (L.drop 8); have := l4 (L.drop 12); omega)]
  rw [← take_sixteen L]
  simp only [List.map_append, List.map_map, List.append_assoc]
  rfl

/-- One iteration of the `convert_avx` loop body computes `convert_simd_elem`
on each of the 16 floats it loads. -/
theorem avx_batch (inbuf : List float32) (o : Nat) :
    _mm_packus_epi16
      (_mm_add_epi16 (_mm_packs_epi32
        (_mm256_castsi256_si128
          (_mm256_cvtps_epi32 (_mm256_mul_ps (_mm256_loadu_ps inbuf (o + 0)) (_mm256_set_ps (.fin 127 0)))))
        (_mm256_extractf128_si256_1
          (_mm256_cvtps_epi32 (_mm256_mul_ps (_mm256_loadu_ps inbuf (o + 0)) (_mm256_set_ps (.fin 127 0))))))
        (_mm_set_epi16 127))
      (_mm_add_epi16 (_mm_packs_epi32
        (_mm256_castsi256_si128
          (_mm256_cvtps_epi32 (_mm256_mul_ps (_mm256_loadu_ps inbuf (o + 8)) (_mm256_set_ps (.fin 127 0)))))
        (_mm256_extractf128_si256_1
          (_mm256_cvtps_epi32 (_mm256_mul_ps (_mm256_loadu_ps inbuf (o + 8)) (_mm256_set_ps (.fin 127 0))))))
        (_mm_set_epi16 127)) =
    ((inbuf.drop o).take 16).map convert_simd_elem := by
  simp only [_mm_packus_epi16, _mm_add_epi16, _mm_packs_epi32, _mm256_cvtps_epi32, _mm256_mul_ps,
    _mm256_loadu_ps, _mm256_set_ps, _mm_set_epi16, _mm256_castsi256_si128,
    _mm256_extractf128_si256_1, drop_add_eq, List.drop_zero]
  generalize inbuf.drop o = L
  have l8 : ∀ X : List float32, (X.take 8).length ≤ 8 := fun X => by
    rw [List.length_take]; exact Nat.min_le_left _ _
  rw [zipWith_replicate_right _ _ _ 8 (l8 _), zipWith_replicate_right _ _ _ 8 (l8 _)]
  simp only [List.take_append_drop]
  rw [zipWith_replicate_right _ _ _ 8 (by simp),
    zipWith_replicate_right _ _ _ 8 (by simp)]
  rw [← take_eight_eight L]
  simp only [List.map_append, List.map_map, List.append_assoc]
  rfl

/-- The `convert_default` loop writes `convert_default_elem` of the `count`
floats at `in_off` to the `count` bytes at `out_off`, and nothing else. -/
theorem convert_default_eq (inbuf : List float32) (in_off : Nat) (outbuf : List Nat)
    (out_off : Nat) (count : Nat)
    (hin : in_off + count ≤ inbuf.length) (hout : out_off + count ≤ outbuf.length) :
    convert_default inbuf in_off outbuf out_off count =
      outbuf.take out_off ++ ((inbuf.drop in_off).take count).map convert_default_elem ++
        outbuf.drop (out_off + count) := by
  induction count with
  | zero => simp [convert_default]
  | succ k ih =>
    have ih := ih (by omega) (by omega)
    unfold convert_default at ih ⊢
    rw [List.range_succ, List.foldl_append, ih, List.foldl_cons, List.foldl_nil]
    generalize hM : ((inbuf.drop in_off).take k).map convert_default_elem = M
    have hMl : M.length = k := by
      rw [← hM, List.length_map, List.length_take, List.length_drop]
      omega
    have hlen : (outbuf.take out_off ++ M ++ outbuf.drop (out_off + k)).length = outbuf.length := by
      simp only [List.length_append, List.length_take, List.length_drop]
      omega
    rw [set_eq_memcpy _ _ _ (by rw [hlen]; omega)]
    have hx := memcpy_extend outbuf out_off M
      [convert_default_elem (inbuf.getD (in_off + k) .nonfin)] 1 (by omega) rfl
    rw [hMl] at hx
    rw [hx, List.length_append, hMl, List.length_singleton]
    congr 2
    rw [← hM, List.take_succ, List.map_append, List.getElem?_drop,
      List.getD_eq_getElem?_getD, List.getElem?_eq_getElem (by omega)]
    rfl

/-- The `convert_sse2` loop writes `convert_simd_elem` of the `16 * count`
floats at `in_off` to the `16 * count` bytes at `out_off`, and nothing else. -/
theorem convert_sse2_eq (inbuf : List float32) (in_off : Nat) (outbuf : List Nat)
    (out_off : Nat) (count : Nat)
    (hin : in_off + count * 16 ≤ inbuf.length) (hout : out_off + count * 16 ≤ outbuf.length) :
    convert_sse2 inbuf in_off outbuf out_off count =
      outbuf.take out_off ++ ((inbuf.drop in_off).take (count * 16)).map convert_simd_elem ++
        outbuf.drop (out_off + count * 16) := by
  induction count with
  | zero => simp [convert_sse2]
  | succ k ih =>
    have ih := ih (by omega) (by omega)
    unfold convert_sse2 at ih ⊢
    rw [List.range_succ, List.foldl_append, ih, List.foldl_cons, List.foldl_nil]
    simp only [← Nat.add_assoc]
    rw [sse2_batch inbuf (in_off + k * 16)]
    generalize hM : ((inbuf.drop in_off).take (k * 16)).map convert_simd_elem = M
    have hMl : M.length = k * 16 := by
      rw [← hM, List.length_map, List.length_take, List.length_drop]
      omega
    have hx := memcpy_extend outbuf out_off M
      (((inbuf.drop (in_off + k * 16)).take 16).map convert_simd_elem) 16 (by omega)
      (by rw [List.length_map, List.length_take, List.length_drop]; omega)
    rw [hMl] at hx
    rw [hx, List.length_append, hMl, List.length_map, List.length_take, List.length_drop]
    have e1 : min 16 (inbuf.length - (in_off + k * 16)) = 16 := by omega
    rw [e1, show (k + 1) * 16 = k * 16 + 16 by ring, List.take_add, List.map_append, hM,
      List.drop_drop]

/-- The `convert_avx` loop writes `convert_simd_elem` of the `16 * count`
floats at `in_off` to the `16 * count` bytes at `out_off`, and nothing else. -/
theorem convert_avx_eq (inbuf : List float32) (in_off : Nat) (outbuf : List Nat)
    (out_off : Nat) (count : Nat)
    (hin : in_off + count * 16 ≤ inbuf.length) (hout : out_off + count * 16 ≤ outbuf.length) :
    convert_avx inbuf in_off outbuf out_off count =
      outbuf.take out_off ++ ((inbuf.drop in_off).take (count * 16)).map convert_simd_elem ++
        outbuf.drop (out_off + count * 16) := by
  induction count with
  | zero => simp [convert_avx]
  | succ k ih =>
    have ih := ih (by omega) (by omega)
    unfold convert_avx at ih ⊢
    rw [List.range_succ, List.foldl_append, ih, List.foldl_cons, List.foldl_nil]
    simp only [← Nat.add_assoc]
    rw [avx_batch inbuf (in_off + k * 16)]
    generalize hM : ((inbuf.drop in_off).take (k * 16)).map convert_simd_elem = M
    have hMl : M.length = k * 16 := by
      rw [← hM, List.length_map, List.length_take, List.length_drop]
      omega
    have hx := memcpy_extend outbuf out_off M
      (((inbuf.drop (in_off + k * 16)).take 16).map convert_simd_elem) 16 (by omega)
      (by rw [List.length_map, List.length_take, List.length_drop]; omega)
    rw [hMl] at hx
    rw [hx, List.length_append, hMl, List.length_map, List.length_take, List.length_drop]
    have e1 : min 16 (inbuf.length - (in_off + k * 16)) = 16 := by omega
    rw [e1, show (k + 1) * 16 = k * 16 + 16 by ring, List.take_add, List.map_append, hM,
      List.drop_drop]

theorem length_converted (build : simd_build) (in_ : List float32) (count : Nat)
    (hin : count * 2 ≤ in_.length) : (converted build in_ count).length = count * 2 := by
  cases build <;>
    simp only [converted, List.length_map, List.length_append, List.length_take,
      List.length_drop] <;> omega

theorem splice_eq_memcpy (dst : List Nat) (off : Nat) (src : List Nat) :
    dst.take off ++ src ++ dst.drop (off + src.length) = memcpy dst off src src.length := by
  rw [memcpy, List.take_length]

theorem convert_tail_eq (in_ : List float32) (_buf : List Nat) (off count : Nat)
    (hin : count * 2 ≤ in_.length) (hout : off + count * 2 ≤ _buf.length) :
    convert_default in_ (count / 8 * 8 * 2)
        (_buf.take off ++ ((in_.drop 0).take (count / 8 * 16)).map convert_simd_elem ++
          _buf.drop (off + count / 8 * 16))
        (off + count / 8 * 8 * 2) (count % 8 * 2) =
      _buf.take off ++ converted .USE_SSE2 in_ count ++ _buf.drop (off + count * 2) := by
  have e8 : count / 8 * 8 * 2 = count / 8 * 16 := by omega
  rw [e8, List.drop_zero]
  generalize hM : (in_.take (count / 8 * 16)).map convert_simd_elem = M
  have hMl : M.length = count / 8 * 16 := by
    rw [← hM, List.length_map, List.length_take]
    omega
  have hX : (_buf.take off ++ M ++ _buf.drop (off + count / 8 * 16)).length = _buf.length := by
    simp only [List.length_append, List.length_take, List.length_drop]
    omega
  rw [convert_default_eq _ _ _ _ _ (by omega) (by rw [hX]; omega)]
  generalize hN : ((in_.drop (count / 8 * 16)).take (count % 8 * 2)).map convert_default_elem = N
  have hNl : N.length = count % 8 * 2 := by
    rw [← hN, List.length_map, List.length_take, List.length_drop]
    omega
  have hx := memcpy_extend _buf off M N (count % 8 * 2) (by omega) hNl
  rw [hMl] at hx
  have hy := splice_eq_memcpy (_buf.take off ++ M ++ _buf.drop (off + count / 8 * 16))
    (off + count / 8 * 16) N
  rw [hNl] at hy
  rw [hy, hx, List.length_append, hMl, hNl]
  have e : off + (count / 8 * 16 + count % 8 * 2) = off + count * 2 := by omega
  rw [e]
  simp only [converted, hM, hN]

/-- The conversion block of `work()` puts the converted bytes of the first
`count` samples at the staging offset and leaves the rest of the staging
buffer alone. -/
theorem work_convert_eq (build : simd_build) (in_ : List float32) (_buf : List Nat)
    (off count : Nat) (hin : count * 2 ≤ in_.length) (hout : off + count * 2 ≤ _buf.length) :
    work_convert build in_ _buf off count (count / 8) (count % 8) =
      _buf.take off ++ converted build in_ count ++ _buf.drop (off + count * 2) := by
  cases build with
  | USE_AVX =>
    simp only [work_convert]
    rw [convert_avx_eq _ _ _ _ _ (by omega) (by omega)]
    exact convert_tail_eq in_ _buf off count hin hout
  | USE_SSE2 =>
    simp only [work_convert]
    rw [convert_sse2_eq _ _ _ _ _ (by omega) (by omega)]
    exact convert_tail_eq in_ _buf off count hin hout
  | NONE =>
    simp only [work_convert]
    rw [convert_default_eq _ _ _ _ _ (by omega) (by omega), List.drop_zero]
    rfl

theorem to_uint_of_nat (x : Nat) (h : x < 2 ^ 32) : to_uint (x : Int) = x := by
  unfold to_uint
  rw [Int.emod_eq_of_lt (by omega) (by omega)]
  simp

theorem to_int_of_small (x : Nat) (h : x < 2 ^ 31) : to_int x = (x : Int) := by
  unfold to_int
  rw [Int.emod_eq_of_lt (by omega) (by omega)]
  omega

theorem work_body_eq (build : simd_build) (buf_len : Nat) (s : hackrf_sink_c) (m : Nat)
    (in_ : List float32) (hlen : buf_len < 2 ^ 31) (hoff : s._buf_used ≤ buf_len)
    (hn1 : m < 2 ^ 31) (hin : m * 2 ≤ in_.length)
    (hbuf : s._buf.length = buf_len) :
    work_body build buf_len s (m : Int) in_ =
      if m ≥ (buf_len - s._buf_used) / 2 then
        if s._cbuf.count = s._cbuf.capacity then
          ({ s with
              _buf := s._buf.take s._buf_used ++
                converted build in_ (min m ((buf_len - s._buf_used) / 2)) ++
                s._buf.drop (s._buf_used + min m ((buf_len - s._buf_used) / 2) * 2)
              cerr := s.cerr ++ ["O"] }, 0)
        else
          ({ s with
              _buf := s._buf.take s._buf_used ++
                converted build in_ (min m ((buf_len - s._buf_used) / 2)) ++
                s._buf.drop (s._buf_used + min m ((buf_len - s._buf_used) / 2) * 2)
              _cbuf := (cb_push_back s._cbuf (s._buf.take s._buf_used ++
                converted build in_ (min m ((buf_len - s._buf_used) / 2)) ++
                s._buf.drop (s._buf_used + min m ((buf_len - s._buf_used) / 2) * 2))).2
              _buf_used := 0 }, ((min m ((buf_len - s._buf_used) / 2) : Nat) : Int))
      else
        ({ s with
            _buf := s._buf.take s._buf_used ++
              converted build in_ (min m ((buf_len - s._buf_used) / 2)) ++
              s._buf.drop (s._buf_used + min m ((buf_len - s._buf_used) / 2) * 2)
            _buf_used := s._buf_used + min m ((buf_len - s._buf_used) / 2) * 2 },
          ((min m ((buf_len - s._buf_used) / 2) : Nat) : Int)) := by
  have h1 : to_uint ((buf_len : Int) - s._buf_used) = buf_len - s._buf_used := by
    rw [← Int.ofNat_sub hoff]
    exact to_uint_of_nat _ (by omega)
  have h2 : to_uint (m : Int) = m := to_uint_of_nat _ (by omega)
  generalize hc : min m ((buf_len - s._buf_used) / 2) = count
  have hcle : count * 2 ≤ buf_len - s._buf_used := by omega
  have h3 : count / 8 * 8 + count % 8 = count := Nat.div_add_mod' count 8
  unfold work_body
  have hcm : count ≤ m := by omega
  have h4 : to_uint ((s._buf_used : Int) + (((count / 8 : Nat) : Int) * 8 + ((count % 8 : Nat) : Int)) * 2) =
      s._buf_used + count * 2 := by
    have e : (s._buf_used : Int) + (((count / 8 : Nat) : Int) * 8 + ((count % 8 : Nat) : Int)) * 2 =
        ((s._buf_used + count * 2 : Nat) : Int) := by
      push_cast
      omega
    rw [e]
    exact to_uint_of_nat _ (by omega)
  simp only [h1, h2, hc, h3, h4, to_int_of_small count (by omega),
    work_convert_eq build in_ s._buf s._buf_used count (by omega) (by omega)]
  by_cases hge : m ≥ (buf_len - s._buf_used) / 2
  · rw [if_pos hge, if_pos hge]
    by_cases hfull : s._cbuf.count = s._cbuf.capacity
    · rw [if_pos hfull, cb_push_back_full _ _ hfull]
    · rw [if_neg hfull]
      simp only [cb_push_back, if_neg hfull]
  · rw [if_neg hge, if_neg hge]

/-! ## The claims about the transfer callback -/

/-- C5. Underrun safety: called on an empty pool, the callback returns 0,
leaves the pool (and the staging state) as it was, sets the first `length`
bytes of the destination to zero and leaves the bytes after them alone. -/
theorem tx_callback_underrun (s : hackrf_sink_c) (buffer : List Nat) (length : Nat)
    (hempty : s._cbuf.count = 0) :
    (hackrf_tx_callback s buffer length).1 = 0 ∧
    (hackrf_tx_callback s buffer length).2.1._cbuf = s._cbuf ∧
    (hackrf_tx_callback s buffer length).2.1._buf = s._buf ∧
    (hackrf_tx_callback s buffer length).2.1._buf_used = s._buf_used ∧
    (hackrf_tx_callback s buffer length).2.2.take length = List.replicate length 0 ∧
    (hackrf_tx_callback s buffer length).2.2.drop length = buffer.drop length ∧
    (hackrf_tx_callback s buffer length).2.1.cerr = s.cerr ++ ["U"] := by
  simp only [hackrf_tx_callback, cb_pop_front_empty _ _ hempty, memset]
  refine ⟨by trivial, by trivial, by trivial, by trivial, ?_, ?_, by trivial⟩
  · rw [List.take_left' (List.length_replicate _ _)]
  · rw [List.drop_left' (List.length_replicate _ _)]

theorem tx_callback_underrun_witness :
    (demo_sink 4)._cbuf.count = 0 ∧
    (hackrf_tx_callback (demo_sink 4) (List.replicate 16 9) 16).1 = 0 ∧
    (hackrf_tx_callback (demo_sink 4) (List.replicate 16 9) 16).2.1._cbuf = (demo_sink 4)._cbuf ∧
    (hackrf_tx_callback (demo_sink 4) (List.replicate 16 9) 16).2.2.take 16 =
      List.replicate 16 0 :=
  have h := tx_callback_underrun (demo_sink 4) (List.replicate 16 9) 16 (by decide)
  ⟨by decide, h.1, h.2.1, h.2.2.2.2.1⟩

/-- On a well-formed pool that is not empty the callback copies one whole
slot, `sz` bytes, whatever `length` is. -/
theorem tx_callback_copies_slot (s : hackrf_sink_c) (buffer : List Nat) (length : Nat)
    (hwf : cb_wf s._cbuf) (hne : s._cbuf.count ≠ 0) :
    (hackrf_tx_callback s buffer length).2.2 =
      (cb_contents s._cbuf).headD [] ++ buffer.drop s._cbuf.sz := by
  obtain ⟨h1, _, _, _, _, _, h7⟩ := cb_pop_front_ok s._cbuf buffer hwf hne
  cases hr : cb_pop_front s._cbuf buffer with
  | mk r rest =>
    cases rest with
    | mk cb2 out =>
      rw [hr] at h1 h7
      simp only at h1 h7
      subst h1
      simp only [hackrf_tx_callback, hr]
      exact h7

/-- C6, evaluated.  The pool holds one 16-byte buffer `1 .. 16` and the
destination memory holds 9s.  Asked for `length = 8`, the callback overwrites
16 bytes, so the bytes at index 8 and above are written; asked for
`length = 24`, it also writes 16 bytes, so bytes 16 .. 23 are not written. -/
theorem tx_callback_ignores_length :
    (hackrf_tx_callback demo_sink_full (List.replicate 16 9) 8).2.2 =
      [1, 2, 3, 4, 5, 6, 7, 8, 9, 10, 11, 12, 13, 14, 15, 16] ∧
    (hackrf_tx_callback demo_sink_full (List.replicate 24 9) 24).2.2 =
      [1, 2, 3, 4, 5, 6, 7, 8, 9, 10, 11, 12, 13, 14, 15, 16, 9, 9, 9, 9, 9, 9, 9, 9] := by
  decide

/-! ## The claims about the converters -/

/-- C4, evaluated.  On a batch of 8 complex samples whose 16 components are
all 0.5 the vector converters store 191 (63.5 rounds to the even integer 64,
plus 127) and the scalar converter stores 190 (190.5 with its fraction
dropped). -/
theorem convert_vector_scalar_differ :
    convert_sse2 (List.replicate 16 (.fin 1 (-1))) 0 (List.replicate 16 0) 0 1 =
      List.replicate 16 191 ∧
    convert_avx (List.replicate 16 (.fin 1 (-1))) 0 (List.replicate 16 0) 0 1 =
      List.replicate 16 191 ∧
    convert_default (List.replicate 16 (.fin 1 (-1))) 0 (List.replicate 16 0) 0 16 =
      List.replicate 16 190 := by
  decide

/-! ## The claims about the production step -/

/-- C8. Backpressure rollback: when `work()` reaches the publish attempt
(`noutput_items >= remaining`) and the pool is full at that moment, the
staging offset after the call is the one before it, `consume_each` is given 0,
and the pool is unchanged. -/
theorem work_backpressure_rollback (build : simd_build) (buf_len : Nat) (s : hackrf_sink_c)
    (noutput_items : Int) (in_ : List float32)
    (hattempt : to_uint noutput_items ≥ to_uint ((buf_len : Int) - s._buf_used) / 2)
    (hfull : s._cbuf.count = s._cbuf.capacity) :
    (work_body build buf_len s noutput_items in_).1._buf_used = s._buf_used ∧
    (work_body build buf_len s noutput_items in_).2 = 0 ∧
    (work_body build buf_len s noutput_items in_).1._cbuf = s._cbuf := by
  simp only [work_body, if_pos hattempt, cb_push_back_full _ _ hfull]
  exact ⟨by trivial, by trivial, by trivial⟩

theorem work_backpressure_rollback_witness :
    (to_uint 8 ≥ to_uint (((16 : Nat) : Int) - (demo_sink_full._buf_used : Int)) / 2 ∧
      demo_sink_full._cbuf.count = demo_sink_full._cbuf.capacity) ∧
    (work_body .USE_SSE2 16 demo_sink_full 8 demo_samples).1._buf_used =
      demo_sink_full._buf_used ∧
    (work_body .USE_SSE2 16 demo_sink_full 8 demo_samples).2 = 0 ∧
    (work_body .USE_SSE2 16 demo_sink_full 8 demo_samples).1._cbuf = demo_sink_full._cbuf :=
  ⟨⟨by decide, by decide⟩,
    work_backpressure_rollback .USE_SSE2 16 demo_sink_full 8 demo_samples (by decide) (by decide)⟩

theorem converted_take (build : simd_build) (in_ : List float32) (count : Nat) :
    converted build (in_.take (count * 2)) count = converted build in_ count := by
  have h3 : count / 8 * 8 + count % 8 = count := Nat.div_add_mod' count 8
  have e1 : min (count / 8 * 16) (count * 2) = count / 8 * 16 := by omega
  have e2 : min (count % 8 * 2) (count * 2 - count / 8 * 16) = count % 8 * 2 := by omega
  cases build <;>
    simp only [converted, List.take_take, List.drop_take, Nat.min_self, e1, e2]

/-- C9. Consumed count: for `0 <= noutput_items`, a staging offset within the
staging buffer and an input holding the samples announced, a `work()` call
whose publish is not rejected gives `consume_each` exactly
`count = min(noutput_items, (BUF_LEN - offset) / 2)`; the batch split loses
nothing (`count/8*8 + count%8 = count`); and the staging buffer afterwards is
the one before with the `2 * count` bytes at `offset` replaced by the
converted bytes of the first `count` samples, which depend on no other
sample. -/
theorem work_consumed_count (build : simd_build) (buf_len : Nat) (s : hackrf_sink_c)
    (noutput_items : Int) (in_ : List float32)
    (hlen : buf_len < 2 ^ 31) (hoff : s._buf_used ≤ buf_len)
    (hn0 : 0 ≤ noutput_items) (hn1 : noutput_items < 2 ^ 31)
    (hin : noutput_items.toNat * 2 ≤ in_.length) (hbuf : s._buf.length = buf_len)
    (haccept : ¬ (noutput_items.toNat ≥ (buf_len - s._buf_used) / 2 ∧
      s._cbuf.count = s._cbuf.capacity)) :
    (work_body build buf_len s noutput_items in_).2 =
      (min noutput_items.toNat ((buf_len - s._buf_used) / 2) : Nat) ∧
    min noutput_items.toNat ((buf_len - s._buf_used) / 2) / 8 * 8 +
      min noutput_items.toNat ((buf_len - s._buf_used) / 2) % 8 =
        min noutput_items.toNat ((buf_len - s._buf_used) / 2) ∧
    (work_body build buf_len s noutput_items in_).1._buf =
      s._buf.take s._buf_used ++
        converted build in_ (min noutput_items.toNat ((buf_len - s._buf_used) / 2)) ++
        s._buf.drop (s._buf_used + min noutput_items.toNat ((buf_len - s._buf_used) / 2) * 2) ∧
    converted build in_ (min noutput_items.toNat ((buf_len - s._buf_used) / 2)) =
      converted build
        (in_.take (min noutput_items.toNat ((buf_len - s._buf_used) / 2) * 2))
        (min noutput_items.toNat ((buf_len - s._buf_used) / 2)) ∧
    (converted build in_ (min noutput_items.toNat ((buf_len - s._buf_used) / 2))).length =
      min noutput_items.toNat ((buf_len - s._buf_used) / 2) * 2 := by
  obtain ⟨m, rfl⟩ : ∃ m : Nat, noutput_items = m :=
    ⟨noutput_items.toNat, (Int.toNat_of_nonneg hn0).symm⟩
  rw [Int.toNat_ofNat] at hin haccept ⊢
  rw [work_body_eq build buf_len s m in_ hlen hoff (by omega) hin hbuf]
  refine ⟨?_, Nat.div_add_mod' _ 8, ?_, (converted_take _ _ _).symm,
    length_converted _ _ _ (by omega)⟩
  · by_cases hge : m ≥ (buf_len - s._buf_used) / 2
    · have hnf : ¬ s._cbuf.count = s._cbuf.capacity := fun h => haccept ⟨hge, h⟩
      rw [if_pos hge, if_neg hnf]
    · rw [if_neg hge]
  · by_cases hge : m ≥ (buf_len - s._buf_used) / 2
    · have hnf : ¬ s._cbuf.count = s._cbuf.capacity := fun h => haccept ⟨hge, h⟩
      rw [if_pos hge, if_neg hnf]
    · rw [if_neg hge]

theorem work_consumed_count_witness :
    ((16 : Nat) < 2 ^ 31 ∧ (demo_sink 4)._buf_used ≤ 16 ∧ (0 : Int) ≤ 5 ∧ (5 : Int) < 2 ^ 31 ∧
      (5 : Int).toNat * 2 ≤ demo_samples.length ∧ (demo_sink 4)._buf.length = 16 ∧
      ¬ ((5 : Int).toNat ≥ (16 - (demo_sink 4)._buf_used) / 2 ∧
        (demo_sink 4)._cbuf.count = (demo_sink 4)._cbuf.capacity)) ∧
    (work_body .USE_AVX 16 (demo_sink 4) 5 demo_samples).2 = (5 : Nat) ∧
    (work_body .USE_AVX 16 (demo_sink 4) 5 demo_samples).1._buf =
      [63, 65, 67, 69, 71, 73, 75, 77, 79, 81, 0, 0, 0, 0, 0, 0] :=
  have h := work_consumed_count .USE_AVX 16 (demo_sink 4) 5 demo_samples (by decide) (by decide)
    (by decide) (by decide) (by decide) (by decide) (by decide)
  ⟨⟨by decide, by decide, by decide, by decide, by decide, by decide, by decide⟩,
    h.1, h.2.2.1.trans (by decide)⟩

theorem to_uint_sub (a b : Nat) (h : b ≤ a) (ha : a < 2 ^ 32) :
    to_uint ((a : Int) - b) = a - b := by
  rw [← Int.ofNat_sub h]
  exact to_uint_of_nat _ (by omega)

theorem tx_callback_staging (s : hackrf_sink_c) (buffer : List Nat) (length : Nat) :
    (hackrf_tx_callback s buffer length).2.1._buf = s._buf ∧
    (hackrf_tx_callback s buffer length).2.1._buf_used = s._buf_used := by
  unfold hackrf_tx_callback
  cases hr : cb_pop_front s._cbuf buffer with
  | mk r rest =>
    cases rest with
    | mk cb2 out =>
      cases r <;> exact ⟨rfl, rfl⟩

theorem sink_step_inv (build : simd_build) (buf_len : Nat) (t : sink_trace) (e : sink_event)
    (heven : buf_len % 2 = 0) (hlen : buf_len < 2 ^ 31)
    (hinv : sink_trace_inv buf_len t) (hv : e.valid) :
    sink_trace_inv buf_len (sink_step build buf_len t e) := by
  obtain ⟨hbuf, hoff, hpar, hfresh, hlog⟩ := hinv
  cases e with
  | tx_callback buffer length =>
    obtain ⟨h1, h2⟩ := tx_callback_staging t.s buffer length
    simp only [sink_step]
    refine ⟨?_, ?_, ?_, ?_, hlog⟩
    · show (hackrf_tx_callback t.s buffer length).2.1._buf.length = buf_len
      rw [h1]; exact hbuf
    · show (hackrf_tx_callback t.s buffer length).2.1._buf_used ≤ buf_len
      rw [h2]; exact hoff
    · show (hackrf_tx_callback t.s buffer length).2.1._buf_used % 2 = 0
      rw [h2]; exact hpar
    · show (hackrf_tx_callback t.s buffer length).2.1._buf.take
        (hackrf_tx_callback t.s buffer length).2.1._buf_used = t.fresh
      rw [h1, h2]; exact hfresh
  | work n in_ =>
    obtain ⟨hn0, hn1, hin⟩ := hv
    obtain ⟨m, rfl⟩ : ∃ m : Nat, n = m := ⟨n.toNat, (Int.toNat_of_nonneg hn0).symm⟩
    rw [Int.toNat_ofNat] at hin
    have h1 := to_uint_sub buf_len t.s._buf_used hoff (by omega)
    have h2 : to_uint (m : Int) = m := to_uint_of_nat _ (by omega)
    have hw := work_body_eq build buf_len t.s m in_ hlen hoff (by omega) hin hbuf
    simp only [sink_step, h1, h2]
    generalize hc : min m ((buf_len - t.s._buf_used) / 2) = count at hw ⊢
    have hcl : (converted build in_ count).length = count * 2 :=
      length_converted _ _ _ (by omega)
    have htl : (t.s._buf.take t.s._buf_used).length = t.s._buf_used := by
      rw [List.length_take]; omega
    by_cases hge : m ≥ (buf_len - t.s._buf_used) / 2
    · have hfill : t.s._buf_used + count * 2 = buf_len := by omega
      have hdrop : t.s._buf.drop (t.s._buf_used + count * 2) = [] := by
        rw [hfill, ← hbuf]; exact List.drop_length _
      rw [if_pos hge] at hw
      rw [if_pos hge]
      have hrec : ∀ (a : Bool) r, r ∈ t.log ++ [(⟨t.s._buf_used, count,
          t.s._buf.take t.s._buf_used ++ converted build in_ count ++
            t.s._buf.drop (t.s._buf_used + count * 2),
          t.fresh ++ converted build in_ count, a⟩ : publish_record)] →
          r.offset + 2 * r.count = buf_len ∧ r.buffer.length = buf_len ∧
            r.buffer = r.expected := by
        intro a r hr
        rcases List.mem_append.1 hr with hr | hr
        · exact hlog r hr
        · rw [List.mem_singleton] at hr
          subst hr
          refine ⟨by show t.s._buf_used + 2 * count = buf_len; omega, ?_, ?_⟩
          · show (t.s._buf.take t.s._buf_used ++ converted build in_ count ++
              t.s._buf.drop (t.s._buf_used + count * 2)).length = buf_len
            rw [hdrop, List.append_nil, List.length_append, htl, hcl]
            exact hfill
          · show t.s._buf.take t.s._buf_used ++ converted build in_ count ++
              t.s._buf.drop (t.s._buf_used + count * 2) = t.fresh ++ converted build in_ count
            rw [hdrop, List.append_nil, hfresh]
      by_cases hfull : t.s._cbuf.count = t.s._cbuf.capacity
      · rw [if_pos hfull] at hw
        rw [hw, cb_push_back_full _ _ hfull]
        refine ⟨?_, hoff, hpar, ?_, hrec false⟩
        · show (t.s._buf.take t.s._buf_used ++ converted build in_ count ++
            t.s._buf.drop (t.s._buf_used + count * 2)).length = buf_len
          rw [hdrop, List.append_nil, List.length_append, htl, hcl]
          exact hfill
        · show (t.s._buf.take t.s._buf_used ++ converted build in_ count ++
            t.s._buf.drop (t.s._buf_used + count * 2)).take t.s._buf_used = t.fresh
          rw [List.append_assoc, List.take_left' htl]
          exact hfresh
      · rw [if_neg hfull] at hw
        rw [hw]
        have hacc : ∀ item, (cb_push_back t.s._cbuf item).1 = true := by
          intro item
          simp only [cb_push_back, if_neg hfull]
        simp only [hacc, if_true]
        refine ⟨?_, Nat.zero_le _, rfl, rfl, hrec true⟩
        show (t.s._buf.take t.s._buf_used ++ converted build in_ count ++
            t.s._buf.drop (t.s._buf_used + count * 2)).length = buf_len
        rw [hdrop, List.append_nil, List.length_append, htl, hcl]
        exact hfill
    · rw [if_neg hge] at hw
      rw [if_neg hge, hw]
      refine ⟨?_, by show t.s._buf_used + count * 2 ≤ buf_len; omega,
        by show (t.s._buf_used + count * 2) % 2 = 0; omega, ?_, hlog⟩
      · show (t.s._buf.take t.s._buf_used ++ converted build in_ count ++
            t.s._buf.drop (t.s._buf_used + count * 2)).length = buf_len
        simp only [List.length_append, htl, hcl, List.length_drop]
        omega
      · show (t.s._buf.take t.s._buf_used ++ converted build in_ count ++
            t.s._buf.drop (t.s._buf_used + count * 2)).take (t.s._buf_used + count * 2) =
            t.fresh ++ converted build in_ count
        rw [List.take_left' (by rw [List.length_append, htl, hcl]), hfresh]

theorem sink_run_inv (build : simd_build) (buf_len : Nat) (events : List sink_event)
    (heven : buf_len % 2 = 0) (hlen : buf_len < 2 ^ 31) :
    ∀ t : sink_trace, sink_trace_inv buf_len t → (∀ e ∈ events, e.valid) →
      sink_trace_inv buf_len (sink_run build buf_len t events) := by
  induction events with
  | nil => intro t h _; exact h
  | cons e events ih =>
    intro t h hv
    show sink_trace_inv buf_len (sink_run build buf_len (sink_step build buf_len t e) events)
    exact ih _ (sink_step_inv build buf_len t e heven hlen h (hv e (List.mem_cons_self _ _)))
      (fun o ho => hv o (List.mem_cons_of_mem _ ho))

theorem start_ok (s0 : hackrf_sink_c) (ret : Int) (streaming : Bool)
    (h : (start s0 ret streaming).1 = true) :
    (start s0 ret streaming).2._buf_used = 0 ∧ (start s0 ret streaming).2._buf = s0._buf ∧
      (start s0 ret streaming).2._cbuf = s0._cbuf := by
  unfold start at h ⊢
  by_cases hd : s0._dev = true
  · by_cases hr : ret ≠ 0
    · simp [hd, hr] at h
    · simp only [hd, Bool.not_true, Bool.false_eq_true, if_false, if_neg hr]
      exact ⟨by trivial, by trivial, by trivial⟩
  · simp [hd] at h

theorem work_body_pool (build : simd_build) (buf_len : Nat) (s : hackrf_sink_c) (m : Nat)
    (in_ : List float32) (hlen : buf_len < 2 ^ 31) (hoff : s._buf_used ≤ buf_len)
    (hn1 : m < 2 ^ 31) (hin : m * 2 ≤ in_.length) (hbuf : s._buf.length = buf_len) :
    (work_body build buf_len s (m : Int) in_).1._cbuf =
      if m ≥ (buf_len - s._buf_used) / 2 then
        (cb_push_back s._cbuf (work_body build buf_len s (m : Int) in_).1._buf).2
      else s._cbuf := by
  rw [work_body_eq build buf_len s m in_ hlen hoff hn1 hin hbuf]
  by_cases hge : m ≥ (buf_len - s._buf_used) / 2
  · rw [if_pos hge, if_pos hge]
    by_cases hfull : s._cbuf.count = s._cbuf.capacity
    · rw [if_pos hfull, cb_push_back_full _ _ hfull]
    · rw [if_neg hfull]
  · rw [if_neg hge, if_neg hge]

/-- C7. No partial publish.  Take any run of valid `work()` calls and transfer
callbacks from a successful `start()`, with an even `BUF_LEN`.  Every publish
attempt of the run was made with the staging buffer filled to exactly
`BUF_LEN` bytes (`offset + 2 * count = BUF_LEN`), all of them converter output
accumulated since the buffer was last empty.  And in the state reached, a
`work()` call with fewer items than remain leaves the pool untouched and makes
no attempt, while a call with at least that many hands the pool its staging
buffer of `BUF_LEN` bytes. -/
theorem work_no_partial_publish (build : simd_build) (buf_len : Nat) (s0 : hackrf_sink_c)
    (ret : Int) (streaming : Bool) (events : List sink_event) (noutput_items : Int)
    (in_ : List float32)
    (hstart : (start s0 ret streaming).1 = true) (hbuf : s0._buf.length = buf_len)
    (heven : buf_len % 2 = 0) (hlen : buf_len < 2 ^ 31)
    (hvalid : ∀ e ∈ events, e.valid)
    (hcall : (sink_event.work noutput_items in_).valid) :
    (∀ r ∈ (sink_run build buf_len ⟨(start s0 ret streaming).2, [], []⟩ events).log,
      r.offset + 2 * r.count = buf_len ∧ r.buffer.length = buf_len ∧ r.buffer = r.expected) ∧
    (noutput_items.toNat <
        (buf_len -
          (sink_run build buf_len ⟨(start s0 ret streaming).2, [], []⟩ events).s._buf_used) / 2 →
      (work_body build buf_len
          (sink_run build buf_len ⟨(start s0 ret streaming).2, [], []⟩ events).s
          noutput_items in_).1._cbuf =
        (sink_run build buf_len ⟨(start s0 ret streaming).2, [], []⟩ events).s._cbuf ∧
      (sink_step build buf_len
          (sink_run build buf_len ⟨(start s0 ret streaming).2, [], []⟩ events)
          (.work noutput_items in_)).log =
        (sink_run build buf_len ⟨(start s0 ret streaming).2, [], []⟩ events).log) ∧
    (noutput_items.toNat ≥
        (buf_len -
          (sink_run build buf_len ⟨(start s0 ret streaming).2, [], []⟩ events).s._buf_used) / 2 →
      (work_body build buf_len
          (sink_run build buf_len ⟨(start s0 ret streaming).2, [], []⟩ events).s
          noutput_items in_).1._cbuf =
        (cb_push_back
          (sink_run build buf_len ⟨(start s0 ret streaming).2, [], []⟩ events).s._cbuf
          (work_body build buf_len
            (sink_run build buf_len ⟨(start s0 ret streaming).2, [], []⟩ events).s
            noutput_items in_).1._buf).2 ∧
      (work_body build buf_len
          (sink_run build buf_len ⟨(start s0 ret streaming).2, [], []⟩ events).s
          noutput_items in_).1._buf.length = buf_len) := by
  obtain ⟨hs1, hs2, _⟩ := start_ok s0 ret streaming hstart
  have h0 : sink_trace_inv buf_len ⟨(start s0 ret streaming).2, [], []⟩ := by
    refine ⟨by show (start s0 ret streaming).2._buf.length = buf_len; rw [hs2]; exact hbuf,
      by show (start s0 ret streaming).2._buf_used ≤ buf_len; rw [hs1]; exact Nat.zero_le _,
      by show (start s0 ret streaming).2._buf_used % 2 = 0; rw [hs1], ?_, ?_⟩
    · show (start s0 ret streaming).2._buf.take (start s0 ret streaming).2._buf_used = []
      rw [hs1]; rfl
    · intro r hr; cases hr
  have hrun := sink_run_inv build buf_len events heven hlen _ h0 hvalid
  have hnext := sink_step_inv build buf_len _ (.work noutput_items in_) heven hlen hrun hcall
  generalize sink_run build buf_len ⟨(start s0 ret streaming).2, [], []⟩ events = t at hrun hnext ⊢
  obtain ⟨hb, ho, _, _, hlog⟩ := hrun
  obtain ⟨hn0, hn1, hin⟩ := hcall
  obtain ⟨m, rfl⟩ : ∃ m : Nat, noutput_items = m :=
    ⟨noutput_items.toNat, (Int.toNat_of_nonneg hn0).symm⟩
  rw [Int.toNat_ofNat] at hin ⊢
  have hp := work_body_pool build buf_len t.s m in_ hlen ho (by omega) hin hb
  have h1 := to_uint_sub buf_len t.s._buf_used ho (by omega)
  have h2 : to_uint (m : Int) = m := to_uint_of_nat _ (by omega)
  refine ⟨hlog, ?_, ?_⟩
  · intro hlt
    have hnge : ¬ m ≥ (buf_len - t.s._buf_used) / 2 := by omega
    rw [if_neg hnge] at hp
    refine ⟨hp, ?_⟩
    simp only [sink_step, h1, h2, if_neg hnge]
  · intro hge
    rw [if_pos hge] at hp
    refine ⟨hp, ?_⟩
    have := hnext.1
    simp only [sink_step, h1, h2, if_pos hge] at this
    exact this

theorem work_no_partial_publish_witness :
    ((start (demo_object.init_buffers 16 (some 1) demo_malloc) 0 true).1 = true ∧
      (demo_object.init_buffers 16 (some 1) demo_malloc)._buf.length = 16 ∧
      16 % 2 = 0 ∧ 16 < 2 ^ 31 ∧ (∀ e ∈ demo_events, e.valid) ∧
      (sink_event.work 3 (demo_samples.drop 32)).valid) ∧
    (∀ r ∈ (sink_run .USE_SSE2 16
        ⟨(start (demo_object.init_buffers 16 (some 1) demo_malloc) 0 true).2, [], []⟩
        demo_events).log,
      r.offset + 2 * r.count = 16 ∧ r.buffer.length = 16 ∧ r.buffer = r.expected) ∧
    (sink_run .USE_SSE2 16
        ⟨(start (demo_object.init_buffers 16 (some 1) demo_malloc) 0 true).2, [], []⟩
        demo_events).log.map (fun r => (r.offset, r.count, r.accepted)) =
      [(10, 3, true), (0, 8, false), (0, 8, true)] :=
  have hvalid : ∀ e ∈ demo_events, e.valid := by
    intro e he
    simp only [demo_events, List.mem_cons, List.mem_singleton, List.mem_nil_iff, or_false] at he
    rcases he with h | h | h | h | h <;> subst h
    · exact ⟨by decide, by decide, by decide⟩
    · exact ⟨by decide, by decide, by decide⟩
    · exact ⟨by decide, by decide, by decide⟩
    · trivial
    · exact ⟨by decide, by decide, by decide⟩
  have hcall : (sink_event.work 3 (demo_samples.drop 32)).valid :=
    ⟨by decide, by decide, by decide⟩
  ⟨⟨by decide, by decide, by decide, by decide, hvalid, hcall⟩,
    (work_no_partial_publish .USE_SSE2 16 (demo_object.init_buffers 16 (some 1) demo_malloc)
      0 true demo_events 3 (demo_samples.drop 32) (by decide) (by decide) (by decide)
      (by decide) hvalid hcall).1,
    by decide⟩

theorem feed_aux (build : simd_build) (S : Nat) (hS : 1 ≤ S) (hlen : 2 * S < 2 ^ 31) (k : Nat) :
    ∀ (fuel : Nat) (s : hackrf_sink_c) (in_ : List float32),
      cb_wf s._cbuf → s._cbuf.sz = 2 * S → s._cbuf.count + k ≤ s._cbuf.capacity →
      s._buf.length = 2 * S → s._buf_used = 0 → in_.length = 2 * (k * S) → k ≤ fuel →
      k * S < 2 ^ 31 →
      ∃ s2, feed build (2 * S) fuel s in_ = some (s2, ((k * S : Nat) : Int)) ∧
        cb_contents s2._cbuf = cb_contents s._cbuf ++
          (List.range k).map (fun j => converted build (in_.drop (j * (2 * S))) S) ∧
        s2._cbuf.count = s._cbuf.count + k ∧ s2._buf_used = 0 := by
  induction k with
  | zero =>
    intro fuel s in_ _ _ _ _ hoff hin _ _
    have h0 : in_.length / 2 = 0 := by rw [hin]; simp
    refine ⟨s, ?_, by simp, rfl, hoff⟩
    cases fuel <;> simp [feed, h0]
  | succ k ih =>
    intro fuel s in_ hwf hsz hroom hbuf hoff hin hfuel hbound
    obtain ⟨f, rfl⟩ : ∃ f, fuel = f + 1 := ⟨fuel - 1, by omega⟩
    have hks : (k + 1) * S = k * S + S := by ring
    have hn : in_.length / 2 = (k + 1) * S := by rw [hin]; omega
    have hn0 : ¬ in_.length / 2 = 0 := by
      rw [hn, hks]; omega
    have hnotfull : ¬ s._cbuf.count = s._cbuf.capacity := by omega
    have hw := work_body_eq build (2 * S) s ((k + 1) * S) in_ hlen (by omega) hbound
      (by omega) hbuf
    have hrem : (2 * S - 0) / 2 = S := by omega
    have hmin : min ((k + 1) * S) S = S := by rw [hks]; omega
    have hge : (k + 1) * S ≥ S := by rw [hks]; omega
    have hdrop : s._buf.drop (0 + S * 2) = [] := by
      apply List.drop_eq_nil_of_le; omega
    simp only [hoff, hrem, hmin, if_pos hge, if_neg hnotfull, List.take_zero, List.nil_append,
      hdrop, List.append_nil] at hw
    have hcl : (converted build in_ S).length = S * 2 := length_converted _ _ _ (by omega)
    obtain ⟨_, p2, p3, p4, p5, p6⟩ := cb_push_back_ok s._cbuf (converted build in_ S) hwf
      (by omega) hnotfull
    obtain ⟨s2, e1, e2, e3, e4⟩ := ih f
      { s with _buf := converted build in_ S
               _cbuf := (cb_push_back s._cbuf (converted build in_ S)).2
               _buf_used := 0 }
      (in_.drop (2 * S)) p2 (p4.trans hsz) (by rw [p5, p3]; omega) (by rw [hcl]; omega) rfl
      (by rw [List.length_drop, hin, hks]; omega) (by omega) (by omega)
    refine ⟨s2, ?_, ?_, by rw [e3, p5]; omega, e4⟩
    · rw [feed, if_neg hn0, hn]
      simp only [work, cb_has_room, if_neg hnotfull, if_true, hw, Int.toNat_ofNat, e1]
      congr 2
      push_cast
      ring
    · rw [e2, p6, List.append_assoc, List.range_succ_eq_map, List.map_cons, List.map_map,
        List.singleton_append]
      congr 1
      congr 1
      · rw [Nat.zero_mul, List.drop_zero]
      · apply List.map_congr_left
        intro j _
        simp only [Function.comp, Nat.succ_eq_add_one, List.drop_drop]
        congr 2
        ring

/-- C10. End-to-end fill: a pool of capacity `C` freshly set up by `cb_init`
with buffers of `S` complex samples (`BUF_LEN = 2 * S`), staging offset 0, and
a batch of `C * S` samples offered to `work()` with the unconsumed rest offered
again each time and no callback in between.  With fuel for `C` calls or more
the feed ends; all `C * S` samples are reported consumed; the pool then queues
exactly `C` buffers, the `k`-th being the converted bytes of samples
`k*S .. k*S + S - 1`; and the staging offset is 0 again. -/
theorem feed_fills_pool (build : simd_build) (C S : Nat) (s : hackrf_sink_c)
    (cb0 : circular_buffer_t) (malloc : Nat → Option (List Nat)) (in_ : List float32)
    (fuel : Nat)
    (hC : 1 ≤ C) (hS : 1 ≤ S) (hlen : 2 * S < 2 ^ 31) (hn : C * S < 2 ^ 31)
    (hm : malloc_ok malloc (C * (2 * S)))
    (hpool : s._cbuf = (cb_init cb0 C (2 * S) malloc).2)
    (hbuf : s._buf.length = 2 * S) (hoff : s._buf_used = 0)
    (hin : in_.length = 2 * (C * S)) (hfuel : C ≤ fuel) :
    ∃ s2, feed build (2 * S) fuel s in_ = some (s2, ((C * S : Nat) : Int)) ∧
      cb_contents s2._cbuf =
        (List.range C).map
          (fun k => converted build ((in_.drop (k * (2 * S))).take (S * 2)) S) ∧
      (cb_contents s2._cbuf).length = C ∧ s2._cbuf.count = C ∧ s2._buf_used = 0 := by
  have hsize : C * (2 * S) < SIZE_MOD := by
    have : C * (2 * S) = 2 * (C * S) := by ring
    rw [this]
    unfold SIZE_MOD
    omega
  obtain ⟨_, hwf, hc, hs, hcount⟩ := cb_init_wf cb0 C (2 * S) malloc hC hsize hm
  rw [← hpool] at hwf hc hs hcount
  obtain ⟨s2, e1, e2, e3, e4⟩ := feed_aux build S hS hlen C fuel s in_ hwf hs
    (by rw [hcount, hc]; omega) hbuf hoff hin hfuel hn
  have e0 : cb_contents s._cbuf = [] := by
    simp only [cb_contents, hcount, cb_slots]
  refine ⟨s2, e1, ?_, ?_, by rw [e3, hcount]; omega, e4⟩
  · rw [e2, e0, List.nil_append]
    apply List.map_congr_left
    intro k _
    exact (converted_take build _ S).symm
  · rw [length_cb_contents, e3, hcount]
    omega

theorem feed_fills_pool_witness :
    (1 ≤ 4 ∧ 1 ≤ 8 ∧ 2 * 8 < 2 ^ 31 ∧ 4 * 8 < 2 ^ 31 ∧ malloc_ok demo_malloc (4 * (2 * 8)) ∧
      (demo_sink 4)._cbuf = (cb_init demo_object._cbuf 4 (2 * 8) demo_malloc).2 ∧
      (demo_sink 4)._buf.length = 2 * 8 ∧ (demo_sink 4)._buf_used = 0 ∧
      demo_samples.length = 2 * (4 * 8) ∧ 4 ≤ 4) ∧
    (∃ s2, feed .USE_SSE2 (2 * 8) 4 (demo_sink 4) demo_samples = some (s2, ((4 * 8 : Nat) : Int)) ∧
      cb_contents s2._cbuf =
        (List.range 4).map
          (fun k => converted .USE_SSE2 ((demo_samples.drop (k * (2 * 8))).take (8 * 2)) 8) ∧
      (cb_contents s2._cbuf).length = 4 ∧ s2._cbuf.count = 4 ∧ s2._buf_used = 0) ∧
    (feed .USE_SSE2 16 4 (demo_sink 4) demo_samples).map
        (fun r => (cb_contents r.1._cbuf, r.1._buf_used, r.2)) =
      some ([[63, 65, 67, 69, 71, 73, 75, 77, 79, 81, 83, 85, 87, 89, 91, 93],
             [95, 97, 99, 101, 103, 105, 107, 109, 111, 113, 115, 117, 119, 121, 123, 125],
             [127, 129, 131, 133, 135, 137, 139, 141, 143, 145, 147, 149, 151, 153, 155, 157],
             [159, 161, 163, 165, 167, 169, 171, 173, 175, 177, 179, 181, 183, 185, 187, 189]],
            0, 32) :=
  have hm : malloc_ok demo_malloc (4 * (2 * 8)) := ⟨_, rfl, by decide⟩
  ⟨⟨by decide, by decide, by decide, by decide, hm, by decide, by decide, by decide, by decide,
      by decide⟩,
    feed_fills_pool .USE_SSE2 4 8 (demo_sink 4) demo_object._cbuf demo_malloc demo_samples 4
      (by decide) (by decide) (by decide) (by decide) hm (by decide) (by decide) (by decide)
      (by decide) (by decide),
    by decide⟩

/-! ## The staging offset -/

theorem start_sets_offset (s0 : hackrf_sink_c) (ret : Int) (streaming : Bool)
    (hdev : s0._dev = true) : (start s0 ret streaming).2._buf_used = 0 := by
  unfold start
  simp only [hdev, Bool.not_true, Bool.false_eq_true, if_false]
  by_cases hr : ret ≠ 0
  · rw [if_pos hr]
  · rw [if_neg hr]

/-- One `work()` call keeps the staging offset strictly inside the staging
buffer and even, whatever `noutput_items` and the input are. -/
theorem work_body_offset (build : simd_build) (buf_len : Nat) (s : hackrf_sink_c) (n : Int)
    (in_ : List float32) (hlen : buf_len < 2 ^ 31) (hinv : staging_inv buf_len s) :
    staging_inv buf_len (work_body build buf_len s n in_).1 := by
  obtain ⟨hoff, hpar⟩ := hinv
  unfold BYTES_PER_SAMPLE at hpar
  unfold staging_inv BYTES_PER_SAMPLE
  have h1 := to_uint_sub buf_len s._buf_used (Nat.le_of_lt hoff) (by omega)
  unfold work_body
  simp only [h1]
  generalize to_uint n = u
  generalize hc : min u ((buf_len - s._buf_used) / 2) = count
  by_cases hge : u ≥ (buf_len - s._buf_used) / 2
  · rw [if_pos hge]
    by_cases hfull : s._cbuf.count = s._cbuf.capacity
    · simp only [cb_push_back_full _ _ hfull]
      exact ⟨hoff, hpar⟩
    · simp only [cb_push_back, if_neg hfull]
      exact ⟨by omega, by trivial⟩
  · rw [if_neg hge]
    have h4 : to_uint ((s._buf_used : Int) +
        (((count / 8 : Nat) : Int) * 8 + ((count % 8 : Nat) : Int)) * 2) =
        s._buf_used + count * 2 := by
      have e : (s._buf_used : Int) +
          (((count / 8 : Nat) : Int) * 8 + ((count % 8 : Nat) : Int)) * 2 =
          ((s._buf_used + count * 2 : Nat) : Int) := by
        push_cast
        omega
      rw [e]
      exact to_uint_of_nat _ (by omega)
    simp only [h4]
    constructor <;> omega

theorem sink_step_state (build : simd_build) (buf_len : Nat) (t : sink_trace)
    (n : Int) (in_ : List float32) :
    (sink_step build buf_len t (.work n in_)).s = (work_body build buf_len t.s n in_).1 := by
  simp only [sink_step]
  by_cases h : to_uint n ≥ to_uint ((buf_len : Int) - t.s._buf_used) / 2
  · rw [if_pos h]
  · rw [if_neg h]

theorem sink_step_offset (build : simd_build) (buf_len : Nat) (t : sink_trace) (e : sink_event)
    (hlen : buf_len < 2 ^ 31) (hinv : staging_inv buf_len t.s) :
    staging_inv buf_len (sink_step build buf_len t e).s := by
  cases e with
  | work n in_ =>
    rw [sink_step_state]
    exact work_body_offset build buf_len t.s n in_ hlen hinv
  | tx_callback buffer length =>
    obtain ⟨_, h2⟩ := tx_callback_staging t.s buffer length
    show (hackrf_tx_callback t.s buffer length).2.1._buf_used < buf_len ∧
      (hackrf_tx_callback t.s buffer length).2.1._buf_used % BYTES_PER_SAMPLE = 0
    rw [h2]
    exact hinv

theorem sink_run_offset (build : simd_build) (buf_len : Nat) (events : List sink_event)
    (hlen : buf_len < 2 ^ 31) :
    ∀ t : sink_trace, staging_inv buf_len t.s →
      staging_inv buf_len (sink_run build buf_len t events).s := by
  induction events with
  | nil => intro t h; exact h
  | cons e events ih =>
    intro t h
    show staging_inv buf_len (sink_run build buf_len (sink_step build buf_len t e) events).s
    exact ih _ (sink_step_offset build buf_len t e hlen h)

theorem work_body_buf_length (build : simd_build) (buf_len : Nat) (s : hackrf_sink_c) (m : Nat)
    (in_ : List float32) (hlen : buf_len < 2 ^ 31) (hoff : s._buf_used ≤ buf_len)
    (hn1 : m < 2 ^ 31) (hin : m * 2 ≤ in_.length) (hbuf : s._buf.length = buf_len) :
    (work_body build buf_len s (m : Int) in_).1._buf.length = buf_len := by
  rw [work_body_eq build buf_len s m in_ hlen hoff hn1 hin hbuf]
  generalize hc : min m ((buf_len - s._buf_used) / 2) = count
  have hcl : (converted build in_ count).length = count * 2 :=
    length_converted _ _ _ (by omega)
  have hstaged : (s._buf.take s._buf_used ++ converted build in_ count ++
      s._buf.drop (s._buf_used + count * 2)).length = buf_len := by
    simp only [List.length_append, List.length_take, List.length_drop, hcl]
    omega
  by_cases hge : m ≥ (buf_len - s._buf_used) / 2
  · rw [if_pos hge]
    by_cases hfull : s._cbuf.count = s._cbuf.capacity
    · rw [if_pos hfull]
      exact hstaged
    · rw [if_neg hfull]
      exact hstaged
  · rw [if_neg hge]
    exact hstaged

theorem sink_run_buf_length (build : simd_build) (buf_len : Nat) (events : List sink_event)
    (hlen : buf_len < 2 ^ 31) :
    ∀ t : sink_trace, staging_inv buf_len t.s → t.s._buf.length = buf_len →
      (∀ e ∈ events, e.valid) →
      (sink_run build buf_len t events).s._buf.length = buf_len := by
  induction events with
  | nil => intro t _ h _; exact h
  | cons e events ih =>
    intro t hinv hbuf hv
    show (sink_run build buf_len (sink_step build buf_len t e) events).s._buf.length = buf_len
    refine ih _ (sink_step_offset build buf_len t e hlen hinv) ?_
      (fun o ho => hv o (List.mem_cons_of_mem _ ho))
    have hve := hv e (List.mem_cons_self _ _)
    cases e with
    | work n in_ =>
      obtain ⟨hn0, hn1, hin⟩ := hve
      obtain ⟨m, rfl⟩ : ∃ m : Nat, n = m := ⟨n.toNat, (Int.toNat_of_nonneg hn0).symm⟩
      rw [Int.toNat_ofNat] at hin
      rw [sink_step_state]
      exact work_body_buf_length build buf_len t.s m in_ hlen (Nat.le_of_lt hinv.1)
        (by omega) hin hbuf
    | tx_callback buffer length =>
      obtain ⟨h1, _⟩ := tx_callback_staging t.s buffer length
      show (hackrf_tx_callback t.s buffer length).2.1._buf.length = buf_len
      rw [h1]
      exact hbuf

/-- C11. Staging offset invariant.  With a device handle present `start()`
sets `_buf_used` to 0, whatever `hackrf_start_tx` answers.  After any run of
`work()` calls and transfer callbacks from there, and after one more `work()`
call with any `noutput_items` and input (publish accepted, rejected or not
attempted), `_buf_used` is below `BUF_LEN` and a multiple of
`BYTES_PER_SAMPLE`; being an `unsigned int` it is never negative.  So the
bytes a call converts, `BYTES_PER_SAMPLE * count` of them from `_buf_used` on,
end at or before `BUF_LEN`, and with calls that bring the samples they
announce the staging buffer keeps its `BUF_LEN` bytes.  `BUF_LEN` is any
positive `int` value. -/
theorem staging_offset_invariant (build : simd_build) (buf_len : Nat) (s0 : hackrf_sink_c)
    (ret : Int) (streaming : Bool) (events : List sink_event) (noutput_items : Int)
    (in_ : List float32)
    (hdev : s0._dev = true) (hpos : 0 < buf_len) (hlen : buf_len < 2 ^ 31) :
    (start s0 ret streaming).2._buf_used = 0 ∧
    (sink_run build buf_len ⟨(start s0 ret streaming).2, [], []⟩ events).s._buf_used < buf_len ∧
    (sink_run build buf_len ⟨(start s0 ret streaming).2, [], []⟩ events).s._buf_used %
      BYTES_PER_SAMPLE = 0 ∧
    (work_body build buf_len
      (sink_run build buf_len ⟨(start s0 ret streaming).2, [], []⟩ events).s
      noutput_items in_).1._buf_used < buf_len ∧
    (work_body build buf_len
      (sink_run build buf_len ⟨(start s0 ret streaming).2, [], []⟩ events).s
      noutput_items in_).1._buf_used % BYTES_PER_SAMPLE = 0 ∧
    (sink_run build buf_len ⟨(start s0 ret streaming).2, [], []⟩ events).s._buf_used +
      BYTES_PER_SAMPLE * min (to_uint noutput_items)
        (to_uint ((buf_len : Int) -
          (sink_run build buf_len ⟨(start s0 ret streaming).2, [], []⟩ events).s._buf_used) / 2)
      ≤ buf_len ∧
    (s0._buf.length = buf_len → (∀ e ∈ events, e.valid) →
      (sink_run build buf_len ⟨(start s0 ret streaming).2, [], []⟩ events).s._buf.length =
        buf_len) := by
  have hs := start_sets_offset s0 ret streaming hdev
  have h0 : staging_inv buf_len (start s0 ret streaming).2 := by
    refine ⟨?_, ?_⟩
    · rw [hs]; exact hpos
    · rw [hs]; rfl
  have hrun := sink_run_offset build buf_len events hlen ⟨(start s0 ret streaming).2, [], []⟩ h0
  have hnext := work_body_offset build buf_len _ noutput_items in_ hlen hrun
  refine ⟨hs, hrun.1, hrun.2, hnext.1, hnext.2, ?_, ?_⟩
  · have hlt := hrun.1
    have h1 := to_uint_sub buf_len _ (Nat.le_of_lt hlt) (by omega)
    rw [h1]
    unfold BYTES_PER_SAMPLE
    omega
  · intro hbuf hvalid
    refine sink_run_buf_length build buf_len events hlen ⟨(start s0 ret streaming).2, [], []⟩
      h0 ?_ hvalid
    show (start s0 ret streaming).2._buf.length = buf_len
    unfold start
    simp only [hdev, Bool.not_true, Bool.false_eq_true, if_false]
    by_cases hr : ret ≠ 0
    · rw [if_pos hr]; exact hbuf
    · rw [if_neg hr]; exact hbuf

theorem staging_offset_invariant_witness :
    ((demo_object.init_buffers 16 (some 1) demo_malloc)._dev = true ∧ 0 < 16 ∧ 16 < 2 ^ 31) ∧
    (0 < BUF_LEN ∧ BUF_LEN < 2 ^ 31) ∧
    (start (demo_object.init_buffers 16 (some 1) demo_malloc) 0 true).2._buf_used = 0 ∧
    (work_body .USE_SSE2 16
      (sink_run .USE_SSE2 16
        ⟨(start (demo_object.init_buffers 16 (some 1) demo_malloc) 0 true).2, [], []⟩
        demo_events).s
      3 (demo_samples.drop 32)).1._buf_used < 16 ∧
    (work_body .USE_SSE2 16
      (sink_run .USE_SSE2 16
        ⟨(start (demo_object.init_buffers 16 (some 1) demo_malloc) 0 true).2, [], []⟩
        demo_events).s
      3 (demo_samples.drop 32)).1._buf_used = 6 ∧
    (sink_run .USE_SSE2 16
        ⟨(start (demo_object.init_buffers 16 (some 1) demo_malloc) 0 true).2, [], []⟩
        (demo_events.take 1)).s._buf_used = 10 :=
  have h := staging_offset_invariant .USE_SSE2 16
    (demo_object.init_buffers 16 (some 1) demo_malloc) 0 true demo_events 3
    (demo_samples.drop 32) (by decide) (by decide) (by decide)
  ⟨⟨by decide, by decide, by decide⟩, ⟨by decide, by decide⟩, h.1, h.2.2.2.1, by decide,
    by decide⟩

end HackRF
